import Mathlib

/-!
# Verification of the lux package manager core (lockfile, version algebra, sync, manifest cache)

A shallow embedding, in Lean 4, of the parts of the `lux` package manager that the
specification's claims are about:

* `lux-lib/src/package/version.rs` — `PackageVersion`, `PackageVersionReq`, their
  parsing and rendering, together with a model of the `semver` crate's `Version` /
  `VersionReq` types as this code uses them;
* `lux-lib/src/lockfile/mod.rs` — `LocalPackageId`, `LockConstraint`, `LocalPackage`,
  `LocalPackageLock` (a `BTreeMap` keyed by package id), the write-session operations
  `add` / `add_entrypoint` / `add_dependency`, and the pure sync algorithm
  `package_sync_spec`;
* `lux-lib/src/manifest/mod.rs` — `get_manifest` and `manifest_from_cache_or_server`,
  with HTTP and the zip archive abstracted to an explicit world record and the
  performed effects made visible as a trace.

Machine integers are modelled as `Nat` with explicit `% 2 ^ w` where overflow matters;
SHA-256 is implemented concretely (no axioms).  Rust iterator pipelines over hash sets
are modelled as lists, with all set-valued statements phrased via membership.
-/

set_option maxRecDepth 4096
set_option linter.constructorNameAsVariable false

namespace Lux

/-! ## SHA-256 (concrete implementation, modelling the `sha2` crate `Sha256`)

Words are `Nat`s kept below `2 ^ 32` by explicit masking.  Messages are lists of
bytes (`Nat`s below 256).  This is the standard FIPS 180-4 algorithm. -/

namespace Sha256

/-- Truncate to a 32-bit word. -/
def w32 (n : Nat) : Nat := n % 4294967296

/-- Right rotation of a 32-bit word. -/
def rotr (n x : Nat) : Nat := w32 ((x >>> n) ||| (x <<< (32 - n)))

/-- 32-bit complement. -/
def compl32 (x : Nat) : Nat := x ^^^ 4294967295

def bigSigma0 (x : Nat) : Nat := (rotr 2 x) ^^^ (rotr 13 x) ^^^ (rotr 22 x)
def bigSigma1 (x : Nat) : Nat := (rotr 6 x) ^^^ (rotr 11 x) ^^^ (rotr 25 x)
def smallSigma0 (x : Nat) : Nat := (rotr 7 x) ^^^ (rotr 18 x) ^^^ (x >>> 3)
def smallSigma1 (x : Nat) : Nat := (rotr 17 x) ^^^ (rotr 19 x) ^^^ (x >>> 10)
def ch (x y z : Nat) : Nat := (x &&& y) ^^^ ((compl32 x) &&& z)
def maj (x y z : Nat) : Nat := (x &&& y) ^^^ (x &&& z) ^^^ (y &&& z)

/-- The round constants. -/
def K : List Nat :=
  [1116352408, 1899447441, 3049323471, 3921009573, 961987163, 1508970993,
   2453635748, 2870763221, 3624381080, 310598401, 607225278, 1426881987,
   1925078388, 2162078206, 2614888103, 3248222580, 3835390401, 4022224774,
   264347078, 604807628, 770255983, 1249150122, 1555081692, 1996064986,
   2554220882, 2821834349, 2952996808, 3210313671, 3336571891, 3584528711,
   113926993, 338241895, 666307205, 773529912, 1294757372, 1396182291,
   1695183700, 1986661051, 2177026350, 2456956037, 2730485921, 2820302411,
   3259730800, 3345764771, 3516065817, 3600352804, 4094571909, 275423344,
   430227734, 506948616, 659060556, 883997877, 958139571, 1322822218,
   1537002063, 1747873779, 1955562222, 2024104815, 2227730452, 2361852424,
   2428436474, 2756734187, 3204031479, 3329325298]

/-- The initial hash state. -/
structure State where
  a : Nat
  b : Nat
  c : Nat
  d : Nat
  e : Nat
  f : Nat
  g : Nat
  h : Nat

def initState : State :=
  ⟨1779033703, 3144134277, 1013904242, 2773480762, 1359893119, 2600822924, 528734635, 1541459225⟩

/-- One compression round. -/
def round (st : State) (k w : Nat) : State :=
  let t1 := w32 (st.h + bigSigma1 st.e + ch st.e st.f st.g + k + w)
  let t2 := w32 (bigSigma0 st.a + maj st.a st.b st.c)
  ⟨w32 (t1 + t2), st.a, st.b, st.c, w32 (st.d + t1), st.e, st.f, st.g⟩

/-- Big-endian assembly of a 4-byte group into a 32-bit word. -/
def bytesToWords : List Nat → List Nat
  | b0 :: b1 :: b2 :: b3 :: rest => (((b0 <<< 8 ||| b1) <<< 8 ||| b2) <<< 8 ||| b3) :: bytesToWords rest
  | _ => []

/-- Extend the 16 message words to 64 (`n` counts the words still to append). -/
def extendWords (ws : List Nat) : Nat → List Nat
  | 0 => ws
  | n + 1 =>
    let len := ws.length
    let wNew := w32 (smallSigma1 (ws.getD (len - 2) 0) + ws.getD (len - 7) 0 +
                     smallSigma0 (ws.getD (len - 15) 0) + ws.getD (len - 16) 0)
    extendWords (ws ++ [wNew]) n

/-- Process one 64-byte block. -/
def processBlock (hs : State) (block : List Nat) : State :=
  let ws := extendWords (bytesToWords block) 48
  let st := (K.zip ws).foldl (fun st kw => round st kw.1 kw.2) hs
  ⟨w32 (hs.a + st.a), w32 (hs.b + st.b), w32 (hs.c + st.c), w32 (hs.d + st.d),
   w32 (hs.e + st.e), w32 (hs.f + st.f), w32 (hs.g + st.g), w32 (hs.h + st.h)⟩

/-- Split into 64-byte blocks and fold the compression function
(structural recursion on a fuel that bounds the number of blocks,
so that the kernel can evaluate digests). -/
def processBlocksF : Nat → State → List Nat → State
  | 0, hs, _ => hs
  | n + 1, hs, msg =>
    if msg.isEmpty then hs
    else processBlocksF n (processBlock hs (msg.take 64)) (msg.drop 64)

def processBlocks (hs : State) (msg : List Nat) : State :=
  processBlocksF msg.length hs msg

/-- Big-endian length-8 byte rendering of the 64-bit message bit length. -/
def lenBytes (bits : Nat) : List Nat :=
  [w32 0 ||| (bits >>> 56) % 256, (bits >>> 48) % 256, (bits >>> 40) % 256, (bits >>> 32) % 256,
   (bits >>> 24) % 256, (bits >>> 16) % 256, (bits >>> 8) % 256, bits % 256]

/-- SHA-256 padding: `0x80`, zeros to 56 mod 64, then the bit length. -/
def pad (msg : List Nat) : List Nat :=
  let l := msg.length
  let zeros := (119 - (l % 64)) % 64
  msg ++ 0x80 :: List.replicate zeros 0 ++ lenBytes (8 * l)

/-- A 32-bit word as 4 big-endian bytes. -/
def wordBytes (w : Nat) : List Nat := [(w >>> 24) % 256, (w >>> 16) % 256, (w >>> 8) % 256, w % 256]

/-- The SHA-256 digest of a byte list, as a list of 32 bytes. -/
def digest (msg : List Nat) : List Nat :=
  let st := processBlocks initState (pad msg)
  wordBytes st.a ++ wordBytes st.b ++ wordBytes st.c ++ wordBytes st.d ++
  wordBytes st.e ++ wordBytes st.f ++ wordBytes st.g ++ wordBytes st.h

end Sha256

/-- Lowercase hex digit of a nibble: `0`-`9` then `a`-`f`. -/
def hexDigit (n : Nat) : Char :=
  if n < 10 then Char.ofNat (48 + n) else Char.ofNat (87 + n)

/-- Lowercase hexadecimal rendering of a byte list (`hex::encode`). -/
def hexEncode (bytes : List Nat) : String :=
  ⟨bytes.foldr (fun b acc => hexDigit (b / 16 % 16) :: hexDigit (b % 16) :: acc) []⟩

/-- UTF-8 encoding of a single character (the `String::as_bytes` view of Rust). -/
def utf8Char (c : Char) : List Nat :=
  let n := c.toNat
  if n < 0x80 then [n]
  else if n < 0x800 then [0xC0 ||| (n >>> 6), 0x80 ||| (n &&& 0x3F)]
  else if n < 0x10000 then
    [0xE0 ||| (n >>> 12), 0x80 ||| ((n >>> 6) &&& 0x3F), 0x80 ||| (n &&& 0x3F)]
  else
    [0xF0 ||| (n >>> 18), 0x80 ||| ((n >>> 12) &&& 0x3F), 0x80 ||| ((n >>> 6) &&& 0x3F),
     0x80 ||| (n &&& 0x3F)]

/-- UTF-8 bytes of a string. -/
def strBytes (s : String) : List Nat := s.data.foldr (fun c acc => utf8Char c ++ acc) []

/-- SHA-256 of a string's UTF-8 bytes, rendered in lowercase hex
(the `hex::encode(hasher.finalize())` pipeline). -/
def sha256Hex (s : String) : String := hexEncode (Sha256.digest (strBytes s))

/-! ## String utilities

Models of the string primitives the Rust code uses (`split`, `rfind`, `matches('.').count()`,
`trim`, integer `Display`/`parse`), defined over `List Char`. -/

/-- Split on `'.'` (Rust `str::split('.')`): always at least one piece. -/
def splitOnDot : List Char → List (List Char)
  | [] => [[]]
  | c :: cs =>
    match splitOnDot cs with
    | [] => [[c]]
    | p :: ps => if c = '.' then [] :: p :: ps else (c :: p) :: ps

/-- Join with `'.'` (Rust `join(".")` / the inverse of `splitOnDot`). -/
def joinDot : List (List Char) → List Char
  | [] => []
  | [p] => p
  | p :: ps => p ++ '.' :: joinDot ps

/-- Split a string at its *last* `'-'` (Rust `str::rfind('-')`):
`some (before, after)` if a dash occurs, `none` otherwise. -/
def splitLastDash : List Char → Option (List Char × List Char)
  | [] => none
  | c :: cs =>
    match splitLastDash cs with
    | some (a, b) => some (c :: a, b)
    | none => if c = '-' then some ([], cs) else none

/-- Number of `'.'` characters (Rust `s.matches('.').count()`). -/
def countDots (cs : List Char) : Nat := cs.countP (fun c => c = '.')

/-- Decimal digits of a positive number, most significant first, by fuel-bounded
division (structural, so the kernel can evaluate it). -/
def natCharsAux : Nat → Nat → List Char
  | 0, _ => []
  | fuel + 1, n =>
    if n = 0 then [] else natCharsAux fuel (n / 10) ++ [Char.ofNat (48 + n % 10)]

/-- Decimal rendering of a natural number, most significant digit first
(the Rust `Display` of unsigned integers). -/
def natChars (n : Nat) : List Char :=
  if n = 0 then ['0'] else natCharsAux n n

def natToStr (n : Nat) : String := ⟨natChars n⟩

/-- Value of a digit string (used only on all-digit inputs). -/
def parseDigits (cs : List Char) : Nat := cs.foldl (fun a c => 10 * a + (c.toNat - 48)) 0

/-- Longest digit run at the front, and the rest. -/
def spanDigits : List Char → List Char × List Char
  | [] => ([], [])
  | c :: cs =>
    if c.isDigit then
      match spanDigits cs with
      | (d, r) => (c :: d, r)
    else ([], c :: cs)

/-- Rust `str::trim` (both ends; our inputs only carry ASCII whitespace). -/
def trimBoth (cs : List Char) : List Char :=
  ((cs.dropWhile Char.isWhitespace).reverse.dropWhile Char.isWhitespace).reverse

/-- Rust `str::trim_start_matches(' ')` as the `semver` crate uses it. -/
def trimLeadingSpaces (cs : List Char) : List Char := cs.dropWhile (fun c => c = ' ')

/-! ## Model of the `semver` crate (`Version`, `VersionReq`, `Comparator`)

The `lux` version algebra delegates SemVer parsing, rendering, comparison and matching to
the `semver` crate; this section models that crate's behaviour.  Numbers are `Nat` with the
crate's `u64` overflow check made explicit; `Prerelease`/`BuildMetadata` are kept as their
raw strings (the crate stores them as strings and compares them structurally). -/

inductive SvOp
  | exact | greater | greaterEq | less | lessEq | tilde | caret | wildcard
deriving DecidableEq

structure SvComparator where
  op : SvOp
  major : Nat
  minor : Option Nat
  patch : Option Nat
  pre : String
deriving DecidableEq

structure SvVersion where
  major : Nat
  minor : Nat
  patch : Nat
  pre : String
  build : String
deriving DecidableEq

/-- `u64::MAX + 1`: numeric version components must be below this. -/
def u64Bound : Nat := 18446744073709551616

/-- A valid numeric identifier: nonempty digits, no leading zero, fits in `u64`. -/
def validNumeric (cs : List Char) : Bool :=
  !cs.isEmpty && cs.all Char.isDigit && (cs.head? ≠ some '0' || cs.length == 1)
    && parseDigits cs < u64Bound

/-- Characters allowed in pre-release/build identifiers: ASCII alphanumerics and `'-'`. -/
def isIdentChar (c : Char) : Bool := c.isAlphanum || c = '-'

/-- A valid pre-release identifier: nonempty, ident chars, numeric ones without leading zeros. -/
def validPreIdent (cs : List Char) : Bool :=
  !cs.isEmpty && cs.all isIdentChar &&
    (!(cs.all Char.isDigit) || cs.head? ≠ some '0' || cs.length == 1)

/-- A valid build identifier: nonempty ident chars (leading zeros allowed). -/
def validBuildIdent (cs : List Char) : Bool := !cs.isEmpty && cs.all isIdentChar

def validPre (cs : List Char) : Bool := (splitOnDot cs).all validPreIdent
def validBuild (cs : List Char) : Bool := (splitOnDot cs).all validBuildIdent

/-- Split at the first `'+'`, if any. -/
def splitFirstPlus : List Char → List Char × Option (List Char)
  | [] => ([], none)
  | c :: cs =>
    if c = '+' then ([], some cs)
    else
      match splitFirstPlus cs with
      | (a, b) => (c :: a, b)

/-- The pre-release/build tail of a version string (`"" | -pre | -pre+build | +build`). -/
def parseVersionTail : List Char → Option (String × String)
  | [] => some ("", "")
  | '+' :: r => if validBuild r then some ("", ⟨r⟩) else none
  | '-' :: r =>
    match splitFirstPlus r with
    | (p, none) => if validPre p then some (⟨p⟩, "") else none
    | (p, some b) => if validPre p && validBuild b then some (⟨p⟩, ⟨b⟩) else none
  | _ => none

/-- `semver::Version::parse`: `major.minor.patch[-pre][+build]`, all three numeric
components required, no leading zeros, `u64` bounds. -/
def semverParseVersion (s : String) : Option SvVersion :=
  match spanDigits s.data with
  | (majD, '.' :: r1) =>
    (match spanDigits r1 with
     | (minD, '.' :: r2) =>
       (match spanDigits r2 with
        | (patD, r3) =>
          if validNumeric majD && validNumeric minD && validNumeric patD then
            match parseVersionTail r3 with
            | some (pre, build) =>
              some ⟨parseDigits majD, parseDigits minD, parseDigits patD, pre, build⟩
            | none => none
          else none)
     | _ => none)
  | _ => none

/-- `semver::Version` `Display`. -/
def SvVersion.render (v : SvVersion) : String :=
  natToStr v.major ++ "." ++ natToStr v.minor ++ "." ++ natToStr v.patch ++
    (if v.pre = "" then "" else "-" ++ v.pre) ++
    (if v.build = "" then "" else "+" ++ v.build)

/-- Leading comparison operator of a comparator; the `semver` default (nothing consumed)
is `Caret`.  Returns the operator, the rest, and whether the default was used. -/
def parseSvOp : List Char → SvOp × List Char × Bool
  | '=' :: r => (.exact, r, false)
  | '>' :: '=' :: r => (.greaterEq, r, false)
  | '>' :: r => (.greater, r, false)
  | '<' :: '=' :: r => (.lessEq, r, false)
  | '<' :: r => (.less, r, false)
  | '~' :: r => (.tilde, r, false)
  | '^' :: r => (.caret, r, false)
  | cs => (.caret, cs, true)

def isWildcardChar (c : Char) : Bool := c = '*' || c = 'x' || c = 'X'

/-- Pre-release (and optional build) tail of a *comparator*: the `semver` crate parses
identifier characters greedily.  Wildcard components forbid a pre-release. -/
def parseComparatorTail (hasWildcard : Bool) : List Char → Option (String × List Char)
  | '-' :: r =>
    if hasWildcard then none
    else
      match r.span (fun c => isIdentChar c || c = '.') with
      | (p, rest) => if validPre p then some (⟨p⟩, rest) else none
  | cs => some ("", cs)

/-- Build-metadata tail of a comparator (parsed and then discarded by the crate). -/
def parseComparatorBuild : List Char → Option (List Char)
  | '+' :: r =>
    (match r.span (fun c => isIdentChar c || c = '.') with
     | (b, rest) => if validBuild b then some rest else none)
  | cs => some cs

/-- `semver` comparator grammar: operator, spaces, `major[.minor[.patch]]` with `*`/`x`/`X`
wildcards for minor/patch, optional pre-release and build. -/
def parseComparator (input : List Char) : Option SvComparator := do
  let cs := trimLeadingSpaces input
  let (op0, cs, defaultOp) := parseSvOp cs
  let cs := trimLeadingSpaces cs
  let (majD, cs) := spanDigits cs
  if !validNumeric majD then none
  else
    let major := parseDigits majD
    match cs with
    | [] => some ⟨op0, major, none, none, ""⟩
    | '.' :: r1 =>
      (match r1 with
       | w :: r2 =>
         if isWildcardChar w then
           -- wildcard minor: with the default operator the comparator becomes `Wildcard`
           let op1 := if defaultOp then SvOp.wildcard else op0
           (match r2 with
            | '.' :: w2 :: r3 =>
              if isWildcardChar w2 && (trimLeadingSpaces r3).isEmpty then
                some ⟨op1, major, none, none, ""⟩
              else none
            | r2' =>
              if (trimLeadingSpaces r2').isEmpty then some ⟨op1, major, none, none, ""⟩
              else none)
         else
           (match spanDigits r1 with
            | (minD, r2) =>
              if !validNumeric minD then none
              else
                let minor := parseDigits minD
                (match r2 with
                 | '.' :: w2 :: r3 =>
                   if isWildcardChar w2 then
                     let op1 := if defaultOp then SvOp.wildcard else op0
                     if (trimLeadingSpaces r3).isEmpty then some ⟨op1, major, some minor, none, ""⟩
                     else none
                   else
                     (match spanDigits (w2 :: r3) with
                      | (patD, r4) =>
                        if !validNumeric patD then none
                        else do
                          let patch := parseDigits patD
                          let (pre, r5) ← parseComparatorTail false r4
                          let r6 ← parseComparatorBuild r5
                          if (trimLeadingSpaces r6).isEmpty then
                            some ⟨op0, major, some minor, some patch, pre⟩
                          else none)
                 | r2' =>
                   if (trimLeadingSpaces r2').isEmpty then some ⟨op0, major, some minor, none, ""⟩
                   else none))
       | [] => none)
    | rest =>
      if (trimLeadingSpaces rest).isEmpty then some ⟨op0, major, none, none, ""⟩ else none

/-- Split on `','` (comparator separator; `','` cannot occur inside identifiers). -/
def splitOnComma : List Char → List (List Char)
  | [] => [[]]
  | c :: cs =>
    match splitOnComma cs with
    | [] => [[c]]
    | p :: ps => if c = ',' then [] :: p :: ps else (c :: p) :: ps

/-- `semver::VersionReq::parse`: a lone wildcard is the empty comparator list (`STAR`);
otherwise a comma-separated nonempty list of comparators. -/
def semverParseReq (s : String) : Option (List SvComparator) :=
  let cs := trimLeadingSpaces s.data
  match cs with
  | c :: rest =>
    if isWildcardChar c then
      if (trimLeadingSpaces rest).isEmpty then some [] else none
    else (splitOnComma cs).mapM parseComparator
  | [] => (splitOnComma []).mapM parseComparator

/-! ### `semver` matching -/

/-- Lexicographic comparison of character lists (Rust byte-string `Ord` on ASCII). -/
def lexCompare : List Char → List Char → Ordering
  | [], [] => .eq
  | [], _ :: _ => .lt
  | _ :: _, [] => .gt
  | a :: as_, b :: bs => (compare a.toNat b.toNat).then (lexCompare as_ bs)

/-- Comparison of single pre-release identifiers: numeric sorts below alphanumeric;
numeric identifiers compare by magnitude (length, then digits); alphanumeric ones
lexicographically. -/
def identCompare (a b : List Char) : Ordering :=
  let aNum := a.all Char.isDigit
  let bNum := b.all Char.isDigit
  if aNum && bNum then (compare a.length b.length).then (lexCompare a b)
  else if aNum then .lt
  else if bNum then .gt
  else lexCompare a b

def preIdentsCompare : List (List Char) → List (List Char) → Ordering
  | [], [] => .eq
  | [], _ :: _ => .lt
  | _ :: _, [] => .gt
  | a :: as_, b :: bs => (identCompare a b).then (preIdentsCompare as_ bs)

/-- `semver::Prerelease` `Ord`: the empty pre-release (a real release) is greatest. -/
def preCompare (a b : String) : Ordering :=
  if a = "" then (if b = "" then .eq else .gt)
  else if b = "" then .lt
  else preIdentsCompare (splitOnDot a.data) (splitOnDot b.data)

def preGt (a b : String) : Bool := preCompare a b = .gt
def preLt (a b : String) : Bool := preCompare a b = .lt
def preGe (a b : String) : Bool := preCompare a b ≠ .lt

def matchesExact (cmp : SvComparator) (v : SvVersion) : Bool :=
  v.major == cmp.major &&
  (match cmp.minor with | none => true | some m => v.minor == m) &&
  (match cmp.patch with | none => true | some p => v.patch == p) &&
  v.pre == cmp.pre

def matchesGreater (cmp : SvComparator) (v : SvVersion) : Bool :=
  if v.major ≠ cmp.major then v.major > cmp.major
  else
    match cmp.minor with
    | none => false
    | some minor =>
      if v.minor ≠ minor then v.minor > minor
      else
        match cmp.patch with
        | none => false
        | some patch =>
          if v.patch ≠ patch then v.patch > patch
          else preGt v.pre cmp.pre

def matchesLess (cmp : SvComparator) (v : SvVersion) : Bool :=
  if v.major ≠ cmp.major then v.major < cmp.major
  else
    match cmp.minor with
    | none => false
    | some minor =>
      if v.minor ≠ minor then v.minor < minor
      else
        match cmp.patch with
        | none => false
        | some patch =>
          if v.patch ≠ patch then v.patch < patch
          else preLt v.pre cmp.pre

def matchesTilde (cmp : SvComparator) (v : SvVersion) : Bool :=
  if v.major ≠ cmp.major then false
  else
    match cmp.minor with
    | none => true
    | some minor =>
      if v.minor ≠ minor then false
      else
        match cmp.patch with
        | none => true
        | some patch =>
          if v.patch ≠ patch then v.patch > patch
          else preGe v.pre cmp.pre

def matchesCaret (cmp : SvComparator) (v : SvVersion) : Bool :=
  if v.major ≠ cmp.major then false
  else
    match cmp.minor with
    | none => true
    | some minor =>
      match cmp.patch with
      | none => if cmp.major > 0 then v.minor ≥ minor else v.minor == minor
      | some patch =>
        if cmp.major > 0 then
          if v.minor ≠ minor then v.minor > minor
          else if v.patch ≠ patch then v.patch > patch
          else preGe v.pre cmp.pre
        else if v.minor ≠ minor then false
        else if cmp.minor = some 0 && minor == 0 then
          if v.patch ≠ patch then false else preGe v.pre cmp.pre
        else if v.patch ≠ patch then v.patch > patch
        else preGe v.pre cmp.pre

def matchesImpl (cmp : SvComparator) (v : SvVersion) : Bool :=
  match cmp.op with
  | .exact | .wildcard => matchesExact cmp v
  | .greater => matchesGreater cmp v
  | .greaterEq => matchesExact cmp v || matchesGreater cmp v
  | .less => matchesLess cmp v
  | .lessEq => matchesExact cmp v || matchesLess cmp v
  | .tilde => matchesTilde cmp v
  | .caret => matchesCaret cmp v

def preIsCompatible (cmp : SvComparator) (v : SvVersion) : Bool :=
  cmp.major == v.major && cmp.minor == some v.minor && cmp.patch == some v.patch &&
    cmp.pre ≠ ""

/-- `semver::VersionReq::matches`: all comparators must match, and a version carrying a
pre-release additionally needs a comparator with the same triple and a pre-release. -/
def svMatches (req : List SvComparator) (v : SvVersion) : Bool :=
  req.all (fun c => matchesImpl c v) &&
    (v.pre == "" || req.any (fun c => preIsCompatible c v))

/-! ### `semver` rendering -/

def SvOp.render : SvOp → String
  | .exact => "="
  | .greater => ">"
  | .greaterEq => ">="
  | .less => "<"
  | .lessEq => "<="
  | .tilde => "~"
  | .caret => "^"
  | .wildcard => ""

def SvComparator.render (c : SvComparator) : String :=
  c.op.render ++ natToStr c.major ++
    (match c.minor with
     | some m =>
       "." ++ natToStr m ++
         (match c.patch with
          | some p => "." ++ natToStr p ++ (if c.pre = "" then "" else "-" ++ c.pre)
          | none => if c.op = .wildcard then ".*" else "")
     | none => if c.op = .wildcard then ".*" else "")

/-- `semver::VersionReq` `Display`: `"*"` for the empty list, otherwise `", "`-joined. -/
def svReqRender (req : List SvComparator) : String :=
  match req with
  | [] => "*"
  | _ => String.intercalate ", " (req.map SvComparator.render)

/-! ## `lux-lib/src/package/version.rs`: `PackageVersion` and `PackageVersionReq` -/

inductive DevVersion
  | dev | scm
deriving DecidableEq

def DevVersion.render : DevVersion → String
  | .dev => "dev"
  | .scm => "scm"

structure SemVer where
  version : SvVersion
  componentCount : Nat
  specrev : Nat
deriving DecidableEq

structure DevVer where
  modrev : DevVersion
  specrev : Nat
deriving DecidableEq

structure StringVer where
  modrev : String
  specrev : Nat
deriving DecidableEq

inductive PackageVersion
  | semVer (v : SemVer)
  | devVer (v : DevVer)
  | stringVer (v : StringVer)
deriving DecidableEq

/-- `split_specrev`: split at the last `'-'`; the part after it must be a nonempty
run of ASCII digits that fits in a `u16`; with no `'-'`, the specrev is 1. -/
def splitSpecrev (s : String) : Option (String × Nat) :=
  match splitLastDash s.data with
  | some (m, sp) =>
    if sp.all Char.isDigit then
      if sp.isEmpty then none
      else if parseDigits sp < 65536 then some (⟨m⟩, parseDigits sp) else none
    else none
  | none => some (s, 1)

/-- `append_minor_patch_if_missing`: append `".0"` until at least two dots
(bounded unfolding of the Rust recursion, which appends one dot per step). -/
def appendMinorPatchAux : Nat → List Char → List Char
  | 0, cs => cs
  | n + 1, cs => if countDots cs < 2 then appendMinorPatchAux n (cs ++ ['.', '0']) else cs

def appendMinorPatchIfMissing (cs : List Char) : List Char := appendMinorPatchAux 2 cs

/-- `correct_prerelease_version_string`: with more than three dotted components, swap the
third `'.'` for `'-'`, turning the remaining components into a pre-release. -/
def correctPrereleaseVersionString (cs : List Char) : List Char :=
  let parts := splitOnDot cs
  if parts.length > 3 then
    parts.getD 0 [] ++ '.' :: parts.getD 1 [] ++ '.' :: parts.getD 2 [] ++
      '-' :: joinDot (parts.drop 3)
  else cs

def correctVersionString (cs : List Char) : List Char :=
  correctPrereleaseVersionString (appendMinorPatchIfMissing cs)

/-- `parse_version`: correct the string, then `semver::Version::parse`. -/
def parseVersion (cs : List Char) : Option SvVersion :=
  semverParseVersion ⟨correctVersionString cs⟩

/-- `impl FromStr for PackageVersion`. -/
def PackageVersion.parse (text : String) : Option PackageVersion :=
  match splitSpecrev text with
  | none => none
  | some (modrev, specrev) =>
    if modrev = "scm" then some (.devVer ⟨.scm, specrev⟩)
    else if modrev = "dev" then some (.devVer ⟨.dev, specrev⟩)
    else
      match parseVersion modrev.data with
      | some version =>
        some (.semVer ⟨version, min (countDots text.data + 1) 3, specrev⟩)
      | none => some (.stringVer ⟨modrev, specrev⟩)

/-- `split_semver_version`: split the rendered semver string at its last `'-'`. -/
def splitSemverVersion (cs : List Char) : List Char × Option (List Char) :=
  match splitLastDash cs with
  | some (a, b) => (a, some b)
  | none => (cs, none)

/-- `impl Display for SemVer`: truncate the rendered semver core to `component_count`
dotted components, re-attach the pre-release part with a `'.'`, append `-specrev`. -/
def SemVer.render (v : SemVer) : String :=
  let (versionStr, remainder) := splitSemverVersion v.version.render.data
  let base := joinDot ((splitOnDot versionStr).take v.componentCount)
  let luarocksVersionStr :=
    match remainder with
    | some r => base ++ '.' :: r
    | none => base
  ⟨luarocksVersionStr⟩ ++ "-" ++ natToStr v.specrev

/-- `impl Display for PackageVersion`. -/
def PackageVersion.render : PackageVersion → String
  | .semVer v => v.render
  | .devVer v => v.modrev.render ++ "-" ++ natToStr v.specrev
  | .stringVer v => v.modrev ++ "-" ++ natToStr v.specrev

/-- The family of version strings in the round-trip theorem: `a.b.c.d1.….dk-n` with
numeric `a`, `b`, `c`, extra dotted components `ds` and an explicit specrev `n`. -/
def mkVersionStr (a b c : Nat) (ds : List (List Char)) (n : Nat) : String :=
  ⟨natChars a ++ '.' :: natChars b ++ '.' :: natChars c ++ '.' :: joinDot ds ++
    '-' :: natChars n⟩

/-- An extra dotted component that survives the round trip: nonempty, ASCII
alphanumeric (so in particular free of `'-'`, `'.'` and `'+'`), and, when all digits,
without leading zeros. -/
def plainPreIdent (d : List Char) : Bool :=
  !d.isEmpty && d.all Char.isAlphanum &&
    (!(d.all Char.isDigit) || d.head? ≠ some '0' || d.length == 1)

/-! ### `PackageVersionReq` -/

inductive PackageVersionReq
  | semVer (req : List SvComparator)
  | devVer (d : DevVersion)
  | stringVer (s : String)
  | any
deriving DecidableEq

/-- Rust `char::is_alphanumeric` on the ASCII inputs that occur here. -/
def isVersionChar (c : Char) : Bool := c.isAlphanum || c = '-' || c = '_' || c = '.'

/-- `Itertools::chunk_by` on the `isVersionChar` key: maximal runs with their key. -/
def chunkByVersionChar : List Char → List (Bool × List Char)
  | [] => []
  | c :: cs =>
    match chunkByVersionChar cs with
    | (k, chunk) :: out =>
      if isVersionChar c = k then (k, c :: chunk) :: out
      else (isVersionChar c, [c]) :: (k, chunk) :: out
    | [] => [(isVersionChar c, [c])]

/-- `trim_specrev`: drop everything from the last `'-'` on, if any. -/
def trimSpecrev (cs : List Char) : List Char :=
  match splitLastDash cs with
  | some (a, _) => a
  | none => cs

def isKnownDevVersionStr (cs : List Char) : Bool := cs = ['d', 'e', 'v'] || cs = ['s', 'c', 'm']

/-- `correct_version_req_str`: chunk the string by version-characters; each version chunk
that is not a known dev version string gets its specrev trimmed and its surplus dotted
components converted to a pre-release. -/
def correctVersionReqStr (cs : List Char) : List Char :=
  (chunkByVersionChar cs).foldr
    (fun kc acc =>
      (if kc.1 && !isKnownDevVersionStr kc.2 then
        correctPrereleaseVersionString (trimSpecrev kc.2)
      else kc.2) ++ acc)
    []

/-- `html_escape::decode_html_entities`, modelled as the identity: none of the constraint
strings this development evaluates contain HTML entities, and the universally quantified
theorems range over already-parsed requirement values. -/
def decodeHtmlEntities (s : String) : String := s

/-- `parse_pessimistic_version_constraint` (`~>`): lower bound from the corrected minimum
version, upper bound by bumping the component indicated by the dot count. -/
def parsePessimistic (cs : List Char) : Option (List Char) :=
  let minStr := trimBoth (cs.drop 2)
  match semverParseVersion ⟨correctVersionString minStr⟩ with
  | none => none
  | some minV =>
    let maxV : SvVersion :=
      match countDots minStr with
      | 0 => { minV with major := minV.major + 1 }
      | 1 => { minV with minor := minV.minor + 1 }
      | _ => { minV with patch := minV.patch + 1 }
    some (">= " ++ minV.render ++ ", < " ++ maxV.render).data

/-- `parse_version_req`: unescape, rewrite lux-specific prefixes (`~>`, `@`, `==`, bare
alphanumeric), then `semver::VersionReq::parse`. -/
def parseVersionReqTransformed (s : String) : Option (List SvComparator) :=
  let cs := (decodeHtmlEntities s).data
  let transformed : Option (List Char) :=
    if ['~', '>'].isPrefixOf cs then parsePessimistic cs
    else if ['@'].isPrefixOf cs then some ('=' :: cs.drop 1)
    else if ['=', '='].isPrefixOf cs then some (cs.drop 1)
    else
      match cs with
      | c :: _ => if c.isAlphanum then some ('=' :: cs) else some cs
      | [] => some cs
  match transformed with
  | none => none
  | some t => semverParseReq ⟨t⟩

/-- `impl FromStr for PackageVersionReq` (total: every string parses to some variant). -/
def PackageVersionReq.parse (text : String) : PackageVersionReq :=
  let t := correctVersionReqStr text.data
  let trimmed := trimBoth ((t.dropWhile (fun c => c = '=')).dropWhile (fun c => c = '@'))
  match parseVersionReqTransformed ⟨t⟩ with
  | some req => .semVer req
  | none =>
    if trimmed = ['s', 'c', 'm'] then .devVer .scm
    else if trimmed = ['d', 'e', 'v'] then .devVer .dev
    else .stringVer ⟨trimmed⟩

/-- `PackageVersionReq::matches`. -/
def PackageVersionReq.matches : PackageVersionReq → PackageVersion → Bool
  | .semVer req, .semVer v => svMatches req v.version
  | .devVer r, .devVer v => r == v.modrev
  | .stringVer r, .stringVer v => r == v.modrev
  | .any, _ => true
  | _, _ => false

def PackageVersionReq.isAny : PackageVersionReq → Bool
  | .any => true
  | _ => false

/-- `impl Display for PackageVersionReq`. -/
def PackageVersionReq.render : PackageVersionReq → String
  | .semVer req =>
    let s := svReqRender req
    (match s.data with
     | '=' :: rest => ⟨'=' :: '=' :: rest⟩
     | '^' :: rest => ⟨'~' :: '>' :: rest⟩
     | _ => s)
  | .devVer d => "==" ++ d.render
  | .stringVer s => "==" ++ s
  | .any => "any"

/-! ## `lux-lib/src/lockfile/mod.rs`: identity, constraints, packages, the lock -/

/-- Modelled from the spec: `PackageName` is a case-insensitive string identifier
(its definition lives in `package/mod.rs`, which is not part of the sources at hand);
we represent a name by its case-folded form, so equality is string equality and
`Display` returns the stored string. -/
abbrev PackageName := String

/-- Modelled from the spec: a declared dependency requirement carries a package name and
a version requirement (`LuaDependencySpec::name()` / `version_req()`); the sync algorithm
reads nothing else from it. -/
structure LuaDependencySpec where
  name : PackageName
  versionReq : PackageVersionReq
deriving DecidableEq

inductive PinnedState
  | unpinned | pinned
deriving DecidableEq

def PinnedState.asBool : PinnedState → Bool
  | .unpinned => false
  | .pinned => true

inductive OptState
  | required | optional
deriving DecidableEq

def OptState.asBool : OptState → Bool
  | .required => false
  | .optional => true

inductive LockConstraint
  | unconstrained
  | constrained (req : PackageVersionReq)
deriving DecidableEq

/-- `LockConstraint::matches_version_req`: `Unconstrained` matches exactly the declared
`Any`; a constrained requirement matches by structural equality. -/
def LockConstraint.matchesVersionReq : LockConstraint → PackageVersionReq → Bool
  | .unconstrained, req => req.isAny
  | .constrained c, req => c == req

/-- Rust `bool` `Display`. -/
def boolStr : Bool → String
  | true => "true"
  | false => "false"

/-- The constraint component of the id hash input: the rendered requirement, or the
empty string for `Unconstrained`. -/
def LockConstraint.hashStr : LockConstraint → String
  | .unconstrained => ""
  | .constrained req => req.render

/-- The exact byte layout hashed by `LocalPackageId::new`:
`format!("{}{}{}{}{}", name, version, pinned.as_bool(), opt.as_bool(), constraint)`. -/
def idHashInput (name : PackageName) (version : PackageVersion) (pinned : PinnedState)
    (opt : OptState) (constraint : LockConstraint) : String :=
  name ++ version.render ++ boolStr pinned.asBool ++ boolStr opt.asBool ++ constraint.hashStr

/-- `LocalPackageId::new`: lowercase hex of the SHA-256 of the hash input. -/
def LocalPackageId.new (name : PackageName) (version : PackageVersion) (pinned : PinnedState)
    (opt : OptState) (constraint : LockConstraint) : String :=
  sha256Hex (idHashInput name version pinned opt constraint)

/-- `LockConstraint::try_from(&Option<String>)` (the parse is total, so no error case). -/
def lockConstraintOfStored : Option String → LockConstraint
  | none => .unconstrained
  | some s => .constrained (PackageVersionReq.parse s)

structure LocalPackageSpec where
  name : PackageName
  version : PackageVersion
  pinned : PinnedState
  opt : OptState
  dependencies : List String
  constraint : Option String
  binaries : List String
deriving DecidableEq

/-- `LocalPackageSpec::id`: recompute the content-addressed id from the spec fields. -/
def LocalPackageSpec.id (s : LocalPackageSpec) : String :=
  LocalPackageId.new s.name s.version s.pinned s.opt (lockConstraintOfStored s.constraint)

/-- `LocalPackage`: the spec plus source/integrity data.  `RemotePackageSource`,
`RemotePackageSourceUrl` and `LocalPackageHashes` live outside the version/lockfile logic
these claims touch; they are modelled as opaque strings, which preserves their role in
structural equality of packages. -/
structure LocalPackage where
  spec : LocalPackageSpec
  source : String
  sourceUrl : Option String
  hashes : String × String
deriving DecidableEq

def LocalPackage.id (p : LocalPackage) : String := p.spec.id
def LocalPackage.name (p : LocalPackage) : PackageName := p.spec.name
def LocalPackage.constraintVal (p : LocalPackage) : LockConstraint :=
  lockConstraintOfStored p.spec.constraint
def LocalPackage.dependencies (p : LocalPackage) : List String := p.spec.dependencies

/-! ### The `BTreeMap<LocalPackageId, LocalPackage>` model

A `BTreeMap` is modelled as an association list sorted strictly by key (the Rust `Ord`
on `String` is lexicographic byte order, which UTF-8 makes the same as the character
order used by `String` `<` here).  Sortedness is the `rocksSorted` invariant below. -/

def btGet (m : List (String × LocalPackage)) (k : String) : Option LocalPackage :=
  (m.find? (fun e => e.1 == k)).map (fun e => e.2)

/-- `entry(k).or_insert_with(v)`: insert at the sorted position only when absent.
Keys are compared as their character sequences (the Rust `Ord` on `String` is
lexicographic byte order, which agrees with this on UTF-8). -/
def btOrInsert (m : List (String × LocalPackage)) (k : String) (v : LocalPackage) :
    List (String × LocalPackage) :=
  match m with
  | [] => [(k, v)]
  | (k0, v0) :: rest =>
    if k.data < k0.data then (k, v) :: (k0, v0) :: rest
    else if k.data = k0.data then (k0, v0) :: rest
    else (k0, v0) :: btOrInsert rest k v

/-- `entry(k).and_modify(f).or_insert_with(dflt)`. -/
def btAdjustOrInsert (m : List (String × LocalPackage)) (k : String)
    (f : LocalPackage → LocalPackage) (dflt : LocalPackage) : List (String × LocalPackage) :=
  match m with
  | [] => [(k, dflt)]
  | (k0, v0) :: rest =>
    if k.data < k0.data then (k, dflt) :: (k0, v0) :: rest
    else if k.data = k0.data then (k0, f v0) :: rest
    else (k0, v0) :: btAdjustOrInsert rest k f dflt

/-- `insert` (replacing), as deserialization populates a `BTreeMap`. -/
def btInsert (m : List (String × LocalPackage)) (k : String) (v : LocalPackage) :
    List (String × LocalPackage) :=
  match m with
  | [] => [(k, v)]
  | (k0, v0) :: rest =>
    if k.data < k0.data then (k, v) :: (k0, v0) :: rest
    else if k.data = k0.data then (k0, v) :: rest
    else (k0, v0) :: btInsert rest k v

/-- Rebuild a `BTreeMap` from a key/value sequence (deserialization order). -/
def btFromList (entries : List (String × LocalPackage)) : List (String × LocalPackage) :=
  entries.foldl (fun m e => btInsert m e.1 e.2) []

/-- `LocalPackageLock`: the rocks map and the entrypoint list. -/
structure LocalPackageLock where
  rocks : List (String × LocalPackage)
  entrypoints : List String
deriving DecidableEq

def LocalPackageLock.get (l : LocalPackageLock) (id : String) : Option LocalPackage :=
  btGet l.rocks id

/-- `rocks().values()` in map iteration order. -/
def LocalPackageLock.rocksValues (l : LocalPackageLock) : List LocalPackage :=
  l.rocks.map (fun e => e.2)

/-- The `BTreeMap` sortedness invariant: keys strictly ascending. -/
def rocksSorted (m : List (String × LocalPackage)) : Prop :=
  m.Pairwise (fun a b => a.1.data < b.1.data)

/-- `has_rock_with_equal_constraint`: among installed rocks of the requirement's name
(in map order), the last whose constraint structurally equals the declared requirement. -/
def hasRockWithEqualConstraint (l : LocalPackageLock) (req : LuaDependencySpec) :
    Option LocalPackage :=
  ((l.rocksValues.filter (fun p => p.name == req.name)).reverse).find?
    (fun p => p.constraintVal.matchesVersionReq req.versionReq)

/-- `get_all_dependencies`: all dependencies of a package, including itself, by the
recursion of the source (no visited set).  The fuel bounds the recursion depth; `none`
means the bound was hit — the Rust original recurses forever (overflows) in that case. -/
def getAllDependenciesF (l : LocalPackageLock) : Nat → String → Option (List LocalPackage)
  | 0, _ => none
  | fuel + 1, id =>
    match l.get id with
    | none => some []
    | some p => do
      let rest ← p.dependencies.mapM (getAllDependenciesF l fuel)
      some (p :: rest.flatten)

structure PackageSyncSpec where
  toAdd : List LuaDependencySpec
  toRemove : List LocalPackage
deriving DecidableEq

/-- The observable outcome of `package_sync_spec`: the `expect` panic on an entrypoint
missing from `rocks`, divergence of `get_all_dependencies`, or a result. -/
inductive SyncOutcome
  | panic
  | diverged
  | ok (s : PackageSyncSpec)
deriving DecidableEq

/-- `LocalPackageLock::package_sync_spec`, with the recursion depth of
`get_all_dependencies` made explicit as fuel. -/
def packageSyncSpecF (l : LocalPackageLock) (packages : List LuaDependencySpec)
    (fuel : Nat) : SyncOutcome :=
  match l.entrypoints.mapM l.get with
  | none => .panic
  | some eps =>
    let entrypointsToKeep := eps.filter
      (fun p => packages.any (fun req => p.constraintVal.matchesVersionReq req.versionReq))
    match entrypointsToKeep.mapM (fun p => getAllDependenciesF l fuel p.id) with
    | none => .diverged
    | some keeps =>
      let packagesToKeep := keeps.flatten
      let toAdd := packages.filter (fun pkg => (hasRockWithEqualConstraint l pkg).isNone)
      let toRemove := l.rocksValues.filter (fun pkg => !packagesToKeep.contains pkg)
      .ok ⟨toAdd, toRemove⟩

/-- `package_sync_spec` terminates (no fuel bound makes it diverge). -/
def SyncTerminates (l : LocalPackageLock) (packages : List LuaDependencySpec) : Prop :=
  ∃ fuel, packageSyncSpecF l packages fuel ≠ .diverged

/-! ### Write-session operations (`Lockfile<ReadWrite>`) -/

/-- `Lockfile::add`: insert the rock at its id only if not already present. -/
def lockAdd (l : LocalPackageLock) (rock : LocalPackage) : LocalPackageLock :=
  { l with rocks := btOrInsert l.rocks rock.id rock }

/-- `Lockfile::add_entrypoint`: `add`, then push the id onto `entrypoints`. -/
def lockAddEntrypoint (l : LocalPackageLock) (rock : LocalPackage) : LocalPackageLock :=
  let l2 := lockAdd l rock
  { l2 with entrypoints := l2.entrypoints ++ [rock.id] }

/-- Append one dependency id to a package's dependency list. -/
def pushDep (p : LocalPackage) (depId : String) : LocalPackage :=
  { p with spec := { p.spec with dependencies := p.spec.dependencies ++ [depId] } }

/-- `Lockfile::add_dependency`: extend the target's dependency list (inserting the target
with the extra dependency if absent), then `add` the dependency itself. -/
def lockAddDependency (l : LocalPackageLock) (target dependency : LocalPackage) :
    LocalPackageLock :=
  let l2 := { l with
    rocks := btAdjustOrInsert l.rocks target.id (fun r => pushDep r dependency.id)
      (pushDep target dependency.id) }
  lockAdd l2 dependency

/-- Reachability along `get_all_dependencies`: the package `get id` resolves to, and
everything reachable from its dependency ids. -/
inductive ReachPkg (l : LocalPackageLock) : String → LocalPackage → Prop where
  | here : ∀ {a p}, l.get a = some p → ReachPkg l a p
  | step : ∀ {a p b q}, l.get a = some p → b ∈ p.dependencies → ReachPkg l b q →
      ReachPkg l a q

/-- The dependency graph admits a rank function (equivalently, it is acyclic): every
stored dependency edge strictly decreases the rank. -/
def RankedDeps (l : LocalPackageLock) (rank : String → Nat) : Prop :=
  ∀ a p, l.get a = some p → ∀ b ∈ p.dependencies, rank b < rank a

/-- A self-depending package: its id does not depend on the dependency list, so the
list can mention it. -/
def cyclicId : String :=
  LocalPackageId.new "a" (.stringVer ⟨"x", 1⟩) .unpinned .required .unconstrained

def cyclicPkg : LocalPackage :=
  ⟨⟨"a", .stringVer ⟨"x", 1⟩, .unpinned, .required, [cyclicId], none, []⟩, "s", none,
    ("r", "s")⟩

/-- A lockfile whose single entrypoint depends on itself (its entrypoint invariant
holds, but the dependency graph has a cycle). -/
def cyclicLock : LocalPackageLock := ⟨[(cyclicId, cyclicPkg)], [cyclicId]⟩

/-- A declared requirement with no constraint (matches an `Unconstrained` package). -/
def anyReq : LuaDependencySpec := ⟨"a", .any⟩

/-- A package stored under a key that is not its computed id. -/
def misKeyPkg : LocalPackage :=
  ⟨⟨"b", .stringVer ⟨"x", 1⟩, .unpinned, .required, [], none, []⟩, "s", none, ("r", "s")⟩

def misKeyLock : LocalPackageLock := ⟨[("k", misKeyPkg)], ["k"]⟩

def misKeyReq : LuaDependencySpec := ⟨"b", .any⟩

/-- The claim's wording of constraint equality: the installed constraint equals some
declared requirement's version requirement, an `Unconstrained` constraint matching a
declared `Any`. -/
def constraintMatchesDecl : LockConstraint → PackageVersionReq → Prop
  | .unconstrained, req => req = .any
  | .constrained c, req => c = req

/-- The claim's wording of a kept entrypoint: an entrypoint of the lock whose installed
constraint equals some declared requirement's version requirement. -/
def keptEntrypoint (l : LocalPackageLock) (reqs : List LuaDependencySpec)
    (e : LocalPackage) : Prop :=
  ∃ eid ∈ l.entrypoints, l.get eid = some e ∧
    ∃ r ∈ reqs, constraintMatchesDecl e.constraintVal r.versionReq

/-- One step of the dependencies relation: follow a stored dependency id through the
lock. -/
def depStep (l : LocalPackageLock) (p q : LocalPackage) : Prop :=
  ∃ id ∈ p.dependencies, l.get id = some q

/-- The claim's kept set: the transitive (reflexive) closure, under the dependencies
relation, of the kept entrypoints. -/
def SpecKept (l : LocalPackageLock) (reqs : List LuaDependencySpec)
    (p : LocalPackage) : Prop :=
  ∃ e, keptEntrypoint l reqs e ∧ Relation.ReflTransGen (depStep l) e p

/-- Every rock is stored under its computed content-addressed id (the invariant the
write session maintains, since `add` keys every insertion by `rock.id()`). -/
def KeyConsistent (l : LocalPackageLock) : Prop :=
  ∀ kp ∈ l.rocks, (kp.2 : LocalPackage).id = kp.1

/-- The two packages of the C6 counterexample: `b` is added first but its id sorts after
`a`'s, so serialization order disagrees with insertion order. -/
def pkgA : LocalPackage :=
  ⟨⟨"a", .stringVer ⟨"x", 1⟩, .unpinned, .required, [], none, []⟩, "s", none, ("r", "s")⟩

def pkgB : LocalPackage :=
  ⟨⟨"b", .stringVer ⟨"x", 1⟩, .unpinned, .required, [], none, []⟩, "s", none, ("r", "s")⟩

/-! ## `lux-lib/src/manifest/mod.rs`: manifest fetch and cache freshness

HTTP, the filesystem and the zip library are abstracted into a `ManifestWorld` record:
the cache file (content and modification time), the server's responses to GET and HEAD by
URL (status plus an already-parsed `Last-Modified` date), and the zip extraction of the
`manifest-<version>` entry.  Every function returns, next to its result, the list of
effects it performed, so that "serves from cache without downloading" is a statement
about the trace. -/

structure HttpResponse where
  status : Nat
  lastModified : Option Nat
  body : String
deriving DecidableEq

structure ManifestWorld where
  cache : Option String
  cacheMtime : Nat
  getResp : String → HttpResponse
  headResp : String → HttpResponse
  unzip : String → Option String

inductive Effect
  | getReq (url : String)
  | headReq (url : String)
  | writeCache (content : String)
  | readCache
deriving DecidableEq

inductive ManifestError
  | status (code : Nat)
  | zip
deriving DecidableEq

/-- `reqwest::StatusCode::is_client_error`. -/
def isClientError (s : Nat) : Bool := 400 ≤ s && s < 500

/-- `Response::error_for_status` fails on any 4xx/5xx status. -/
def isErrorStatus (s : Nat) : Bool := 400 ≤ s

/-- `fallback_unzipped_url`: `trim_end_matches(".zip")` (strips the suffix repeatedly). -/
def trimEndZipAux : Nat → List Char → List Char
  | 0, cs => cs
  | n + 1, cs =>
    if ['p', 'i', 'z', '.'].isPrefixOf cs then trimEndZipAux n (cs.drop 4) else cs

def fallbackUnzippedUrl (url : String) : String :=
  ⟨(trimEndZipAux url.data.length url.data.reverse).reverse⟩

/-- `get_manifest`: GET the zip URL; on a 4xx answer retry the unzipped URL once and (on
success) write its plain body to the cache; otherwise unzip the response and write the
extracted `manifest-<version>` entry to the cache. -/
def getManifest (w : ManifestWorld) (url : String) :
    Except ManifestError String × List Effect :=
  if isClientError (w.getResp url).status then
    if isErrorStatus (w.getResp (fallbackUnzippedUrl url)).status then
      (.error (.status (w.getResp (fallbackUnzippedUrl url)).status),
       [.getReq url, .getReq (fallbackUnzippedUrl url)])
    else
      (.ok (w.getResp (fallbackUnzippedUrl url)).body,
       [.getReq url, .getReq (fallbackUnzippedUrl url),
        .writeCache (w.getResp (fallbackUnzippedUrl url)).body])
  else if isErrorStatus (w.getResp url).status then
    (.error (.status (w.getResp url).status), [.getReq url])
  else
    match w.unzip (w.getResp url).body with
    | none => (.error .zip, [.getReq url])
    | some m => (.ok m, [.getReq url, .writeCache m])

/-- The tail of `manifest_from_cache_or_server` once a successful HEAD response is at
hand: compare `Last-Modified` with the cache's modification time; a missing header falls
through to a full `get_manifest`, exactly as a missing cache file does. -/
def afterHead (w : ManifestWorld) (url cached : String) (effs : List Effect)
    (resp : HttpResponse) : Except ManifestError String × List Effect :=
  match resp.lastModified with
  | some lm =>
    if lm > w.cacheMtime then
      match getManifest w url with
      | (res, eff) => (res, effs ++ eff)
    else (.ok cached, effs ++ [.readCache])
  | none =>
    match getManifest w url with
    | (res, eff) => (res, effs ++ eff)

/-- `manifest_from_cache_or_server`: with a cache file, HEAD the zip URL (retrying the
unzipped URL on a 4xx), then dispatch on `Last-Modified`; without a cache file, fetch. -/
def manifestFromCacheOrServer (w : ManifestWorld) (url : String) :
    Except ManifestError String × List Effect :=
  match w.cache with
  | some cached =>
    if isClientError (w.headResp url).status then
      if isErrorStatus (w.headResp (fallbackUnzippedUrl url)).status then
        (.error (.status (w.headResp (fallbackUnzippedUrl url)).status),
         [.headReq url, .headReq (fallbackUnzippedUrl url)])
      else
        afterHead w url cached [.headReq url, .headReq (fallbackUnzippedUrl url)]
          (w.headResp (fallbackUnzippedUrl url))
    else if isErrorStatus (w.headResp url).status then
      (.error (.status (w.headResp url).status), [.headReq url])
    else afterHead w url cached [.headReq url] (w.headResp url)
  | none => getManifest w url

/-- A trace element counts as a download of the manifest body iff it is a GET. -/
def isGet : Effect → Bool
  | .getReq _ => true
  | _ => false

/-- A world in which the cache exists but the HEAD response carries no `Last-Modified`
header, and the server would serve a fresh manifest. -/
def c7World : ManifestWorld :=
  { cache := some "old cached manifest"
    cacheMtime := 5
    getResp := fun _ => ⟨200, none, "zipbody"⟩
    headResp := fun _ => ⟨200, none, ""⟩
    unzip := fun b => if b = "zipbody" then some "fresh manifest" else none }

/-- A server that 404s the zipped manifest but serves the plain one. -/
def c8World : ManifestWorld :=
  { cache := none
    cacheMtime := 0
    getResp := fun u =>
      if u = "https://luarocks.org/manifest-5.1.zip" then ⟨404, none, ""⟩
      else if u = "https://luarocks.org/manifest-5.1" then ⟨200, none, "unzipped manifest body"⟩
      else ⟨500, none, ""⟩
    headResp := fun _ => ⟨500, none, ""⟩
    unzip := fun _ => none }

/-- The claim's wording of `to_add`: the declared requirements for which no installed
package of the same name has an equal constraint (structural equality of the version
requirement, with `Unconstrained` equal to a declared `Any`). -/
def specToAdd (l : LocalPackageLock) (reqs : List LuaDependencySpec) :
    List LuaDependencySpec :=
  reqs.filter (fun r =>
    !(l.rocksValues.any (fun p =>
      p.name == r.name &&
        (match p.constraintVal with
         | .unconstrained => r.versionReq == .any
         | .constrained c => c == r.versionReq))))

/-- The installed `nvim-nio` under the old constraint `>=1.7.0, <1.8.0`. -/
def nvimNioOld : LocalPackage :=
  { spec := { name := "nvim-nio", version := .semVer ⟨⟨1, 7, 0, "", ""⟩, 3, 1⟩,
              pinned := .unpinned, opt := .required, dependencies := [],
              constraint := some ">=1.7.0, <1.8.0", binaries := [] }
    source := "luarocks_rockspec", sourceUrl := none, hashes := ("r", "s") }

/-- A lockfile holding exactly the old `nvim-nio` as an entrypoint. -/
def nvimNioLock : LocalPackageLock := ⟨[(nvimNioOld.id, nvimNioOld)], [nvimNioOld.id]⟩

/-- The tightened declared requirement `nvim-nio >= 2.0.0`. -/
def nvimNioReq : LuaDependencySpec := ⟨"nvim-nio", PackageVersionReq.parse ">=2.0.0"⟩

/-- Replace a version's specrev, keeping its modrev (and component count). -/
def PackageVersion.withSpecrev : PackageVersion → Nat → PackageVersion
  | .semVer v, s => .semVer { v with specrev := s }
  | .devVer v, s => .devVer { v with specrev := s }
  | .stringVer v, s => .stringVer { v with specrev := s }

def PackageVersion.specrevOf : PackageVersion → Nat
  | .semVer v => v.specrev
  | .devVer v => v.specrev
  | .stringVer v => v.specrev

/-- The part of the rendered version preceding the final `-specrev`. -/
def PackageVersion.modrevPart : PackageVersion → List Char
  | .semVer v =>
    (match (splitSemverVersion v.version.render.data).2 with
     | some r =>
       joinDot ((splitOnDot (splitSemverVersion v.version.render.data).1).take
         v.componentCount) ++ '.' :: r
     | none =>
       joinDot ((splitOnDot (splitSemverVersion v.version.render.data).1).take
         v.componentCount))
  | .devVer v => v.modrev.render.data
  | .stringVer v => v.modrev.data


/-! ## Theorems

The remainder of the file settles the specification claims against the model above.
Helper lemmas come first; each claim then gets one theorem (with a counterexample
theorem where the claim as stated fails on the code). -/

namespace Sha256
theorem digest_length (msg : List Nat) : (digest msg).length = 32 := by
  simp [digest, wordBytes]

end Sha256

theorem hexEncode_data_length (bytes : List Nat) : (hexEncode bytes).data.length = 2 * bytes.length := by
  induction bytes with
  | nil => rfl
  | cons b bs ih =>
    simp only [hexEncode] at ih ⊢
    simp [List.foldr_cons, ih]
    omega

theorem sha256Hex_data_length (s : String) : (sha256Hex s).data.length = 64 := by
  show (hexEncode (Sha256.digest (strBytes s))).data.length = 64
  rw [hexEncode_data_length, Sha256.digest_length]

example : sha256Hex "abc" = "ba7816bf8f01cfea414140de5dae2223b00361a396177a9cb410ff61f20015ad" := by
  decide

theorem natCharsAux_eq_digits (fuel : Nat) :
    ∀ n, n ≤ fuel →
      natCharsAux fuel n = (Nat.digits 10 n).reverse.map (fun d => Char.ofNat (48 + d)) := by
  induction fuel with
  | zero =>
    intro n hn
    interval_cases n
    simp [natCharsAux, Nat.digits_zero]
  | succ fuel ih =>
    intro n hn
    by_cases h0 : n = 0
    · subst h0; simp [natCharsAux, Nat.digits_zero]
    · rw [natCharsAux, if_neg h0, ih (n / 10) (by omega),
        Nat.digits_def' (b := 10) (by norm_num) (Nat.pos_of_ne_zero h0)]
      simp

theorem natChars_eq_digits (n : Nat) :
    natChars n = if n = 0 then ['0']
      else (Nat.digits 10 n).reverse.map (fun d => Char.ofNat (48 + d)) := by
  by_cases h : n = 0
  · simp [natChars, h]
  · simp [natChars, h, natCharsAux_eq_digits n n le_rfl]

/-! Sanity checks against the Rust unit tests in `version.rs`. -/

example : PackageVersion.parse "1-1" =
    some (.semVer ⟨⟨1, 0, 0, "", ""⟩, 1, 1⟩) := by decide
example : PackageVersion.parse "1.0-1" =
    some (.semVer ⟨⟨1, 0, 0, "", ""⟩, 2, 1⟩) := by decide
example : PackageVersion.parse "1.0.0-1" =
    some (.semVer ⟨⟨1, 0, 0, "", ""⟩, 3, 1⟩) := by decide
example : PackageVersion.parse "1.0.0-10-1" =
    some (.semVer ⟨⟨1, 0, 0, "10", ""⟩, 3, 1⟩) := by decide
example : PackageVersion.parse "1.0.0.10-1" =
    some (.semVer ⟨⟨1, 0, 0, "10", ""⟩, 3, 1⟩) := by decide
example : PackageVersion.parse "1.0.0.10.0-1" =
    some (.semVer ⟨⟨1, 0, 0, "10.0", ""⟩, 3, 1⟩) := by decide
example : PackageVersion.parse "dev-1" = some (.devVer ⟨.dev, 1⟩) := by decide
example : PackageVersion.parse "scm-1" = some (.devVer ⟨.scm, 1⟩) := by decide
example : PackageVersion.parse "git-1" = some (.stringVer ⟨"git", 1⟩) := by decide

example : PackageVersionReq.parse "dev" = .devVer .dev := by decide
example : PackageVersionReq.parse "==dev" = .devVer .dev := by decide
example : PackageVersionReq.parse "== dev" = .devVer .dev := by decide
example : PackageVersionReq.parse "@ scm" = .devVer .scm := by decide
example : PackageVersionReq.parse "git" = .stringVer "git" := by decide
example : PackageVersionReq.parse "==git" = .stringVer "git" := by decide
example : PackageVersionReq.parse ">1-1,<1.2-2" =
    .semVer [⟨.greater, 1, none, none, ""⟩, ⟨.less, 1, some 2, none, ""⟩] := by decide
example : PackageVersionReq.parse "> 2.1.0.10, < 2.1.1" =
    .semVer [⟨.greater, 2, some 1, some 0, "10"⟩, ⟨.less, 2, some 1, some 1, ""⟩] := by decide
example : (PackageVersionReq.parse "==0.7.1").render = "==0.7.1" := by decide
example : (PackageVersionReq.parse "0.7.1").render = "==0.7.1" := by decide
example : (PackageVersionReq.parse ">=0.7.1").render = ">=0.7.1" := by decide
example : (PackageVersionReq.parse "~> 0.7.1").render = ">=0.7.1, <0.7.2" := by decide
example : (PackageVersionReq.parse "==scm").render = "==scm" := by decide
example : (PackageVersionReq.parse "==a144124839f027a2d0a95791936c478d047126fc").render =
    "==a144124839f027a2d0a95791936c478d047126fc" := by decide


/-! ### Claim C5: matching behaviour of `parse("*")` and `parse("==dev")` -/

/-- C5, counterexample: `PackageVersionReq::parse("*")` does **not** match every version —
it yields the `SemVer` variant (the `semver` crate's `STAR`, an empty comparator list),
whose `matches` rejects the dev version `dev-1` outright. -/
theorem C5_counterexample :
    PackageVersionReq.parse "*" = .semVer [] ∧
    (PackageVersionReq.parse "*").matches (.devVer ⟨.dev, 1⟩) = false := by
  constructor
  · decide
  · decide

/-- C5, amended: `parse("*")` yields the `SemVer` requirement with an empty comparator
list; its `matches` returns true exactly for `SemVer` versions whose pre-release is empty
(so no `DevVer` or `StringVer` version, and no pre-release `SemVer` version, matches).
`parse("==dev")` matches exactly the `DevVer` versions with marker `Dev`, for any
specrev, and no `SemVer` or `StringVer` version. -/
theorem C5_amended :
    PackageVersionReq.parse "*" = .semVer [] ∧
    (∀ v : PackageVersion,
      (PackageVersionReq.parse "*").matches v =
        (match v with
         | .semVer sv => sv.version.pre == ""
         | _ => false)) ∧
    (∀ v : PackageVersion,
      (PackageVersionReq.parse "==dev").matches v =
        (match v with
         | .devVer dv => dv.modrev == DevVersion.dev
         | _ => false)) := by
  have hstar : PackageVersionReq.parse "*" = .semVer [] := by decide
  have hdev : PackageVersionReq.parse "==dev" = .devVer .dev := by decide
  refine ⟨hstar, ?_, ?_⟩
  · intro v
    rw [hstar]
    cases v with
    | semVer sv => simp [PackageVersionReq.matches, svMatches]
    | devVer dv => rfl
    | stringVer sv => rfl
  · intro v
    rw [hdev]
    cases v with
    | semVer sv => rfl
    | devVer dv => simp [PackageVersionReq.matches, eq_comm]
    | stringVer sv => rfl

/-! ### Sorted association list lemmas (the `BTreeMap` invariant and operations) -/

theorem btGet_cons (k0 : String) (v0 : LocalPackage) (rest : List (String × LocalPackage))
    (k : String) :
    btGet ((k0, v0) :: rest) k = if k0 = k then some v0 else btGet rest k := by
  by_cases h : k0 = k <;> simp [btGet, List.find?_cons, h]

theorem btGet_mem {m : List (String × LocalPackage)} {k : String} {v : LocalPackage}
    (h : btGet m k = some v) : (k, v) ∈ m := by
  induction m with
  | nil => simp [btGet] at h
  | cons e rest ih =>
    rcases e with ⟨k0, v0⟩
    rw [btGet_cons] at h
    by_cases hk : k0 = k
    · rw [if_pos hk] at h
      cases h
      cases hk
      exact List.mem_cons_self _ _
    · rw [if_neg hk] at h
      exact List.mem_cons_of_mem _ (ih h)

theorem btGet_isSome_iff {m : List (String × LocalPackage)} {k : String} :
    (btGet m k).isSome ↔ ∃ v, (k, v) ∈ m := by
  constructor
  · intro h
    rcases Option.isSome_iff_exists.mp h with ⟨v, hv⟩
    exact ⟨v, btGet_mem hv⟩
  · rintro ⟨v, hv⟩
    induction m with
    | nil => cases hv
    | cons e rest ih =>
      rcases e with ⟨k0, v0⟩
      rw [btGet_cons]
      by_cases hk : k0 = k
      · simp [hk]
      · rcases List.mem_cons.mp hv with h | h
        · cases h; exact absurd rfl hk
        · simpa [hk] using ih h

theorem mem_btOrInsert {m : List (String × LocalPackage)} {k : String} {v : LocalPackage}
    {e : String × LocalPackage} (h : e ∈ btOrInsert m k v) : e = (k, v) ∨ e ∈ m := by
  induction m with
  | nil => simpa [btOrInsert] using h
  | cons e0 rest ih =>
    rcases e0 with ⟨k0, v0⟩
    rw [btOrInsert] at h
    by_cases h1 : k.data < k0.data
    · rw [if_pos h1] at h
      rcases List.mem_cons.mp h with h | h
      · exact Or.inl h
      · exact Or.inr h
    · rw [if_neg h1] at h
      by_cases h2 : k.data = k0.data
      · rw [if_pos h2] at h
        exact Or.inr h
      · rw [if_neg h2] at h
        rcases List.mem_cons.mp h with h | h
        · exact Or.inr (h ▸ List.mem_cons_self _ _)
        · rcases ih h with h | h
          · exact Or.inl h
          · exact Or.inr (List.mem_cons_of_mem _ h)

theorem btOrInsert_sorted {m : List (String × LocalPackage)} {k : String} {v : LocalPackage}
    (hs : rocksSorted m) : rocksSorted (btOrInsert m k v) := by
  induction m with
  | nil => simp [btOrInsert, rocksSorted]
  | cons e0 rest ih =>
    rcases e0 with ⟨k0, v0⟩
    rw [rocksSorted, List.pairwise_cons] at hs
    rcases hs with ⟨hall, htail⟩
    rw [btOrInsert]
    by_cases h1 : k.data < k0.data
    · rw [if_pos h1]
      refine List.Pairwise.cons ?_ (List.Pairwise.cons hall htail)
      intro e he
      rcases List.mem_cons.mp he with he | he
      · cases he; exact h1
      · exact lt_trans h1 (hall e he)
    · rw [if_neg h1]
      by_cases h2 : k.data = k0.data
      · rw [if_pos h2]
        exact List.Pairwise.cons hall htail
      · rw [if_neg h2]
        refine List.Pairwise.cons ?_ (ih htail)
        intro e he
        rcases mem_btOrInsert he with he | he
        · cases he
          rcases lt_trichotomy k.data k0.data with h | h | h
          · exact absurd h h1
          · exact absurd h h2
          · exact h
        · exact hall e he

theorem btOrInsert_of_present {m : List (String × LocalPackage)} {k : String}
    {v x : LocalPackage} (hs : rocksSorted m) (h : btGet m k = some v) :
    btOrInsert m k x = m := by
  induction m with
  | nil => simp [btGet] at h
  | cons e0 rest ih =>
    rcases e0 with ⟨k0, v0⟩
    rw [rocksSorted, List.pairwise_cons] at hs
    rcases hs with ⟨hall, htail⟩
    rw [btGet_cons] at h
    rw [btOrInsert]
    by_cases hk : k0 = k
    · rw [if_neg (by rw [hk]; exact lt_irrefl k.data), if_pos (by rw [hk])]
    · rw [if_neg hk] at h
      have hk0lt : k0.data < k.data := hall (k, v) (btGet_mem h)
      rw [if_neg (not_lt_of_gt hk0lt), if_neg (fun hkk => hk (String.ext hkk).symm),
        ih htail h]

theorem btGet_btOrInsert_ne {m : List (String × LocalPackage)} {k k2 : String}
    {x : LocalPackage} (h : k2 ≠ k) : btGet (btOrInsert m k x) k2 = btGet m k2 := by
  induction m with
  | nil =>
    rw [show btOrInsert [] k x = [(k, x)] from rfl, btGet_cons, if_neg (Ne.symm h)]
  | cons e0 rest ih =>
    rcases e0 with ⟨k0, v0⟩
    rw [btOrInsert]
    by_cases h1 : k.data < k0.data
    · rw [if_pos h1, btGet_cons, if_neg (fun hk => h hk.symm)]
    · rw [if_neg h1]
      by_cases h2 : k.data = k0.data
      · rw [if_pos h2]
      · rw [if_neg h2, btGet_cons, btGet_cons, ih]

theorem btGet_btOrInsert_self_isSome (m : List (String × LocalPackage)) (k : String)
    (x : LocalPackage) : (btGet (btOrInsert m k x) k).isSome := by
  induction m with
  | nil => simp [btOrInsert, btGet_cons, btGet]
  | cons e0 rest ih =>
    rcases e0 with ⟨k0, v0⟩
    rw [btOrInsert]
    by_cases h1 : k.data < k0.data
    · rw [if_pos h1, btGet_cons, if_pos rfl]; rfl
    · rw [if_neg h1]
      by_cases h2 : k.data = k0.data
      · rw [if_pos h2, btGet_cons, if_pos (String.ext h2).symm]; rfl
      · rw [if_neg h2, btGet_cons, if_neg (fun hk => h2 (congrArg String.data hk.symm))]
        exact ih

theorem mem_btAdjustOrInsert {m : List (String × LocalPackage)} {k : String}
    {f : LocalPackage → LocalPackage} {d : LocalPackage} {e : String × LocalPackage}
    (h : e ∈ btAdjustOrInsert m k f d) :
    e = (k, d) ∨ (∃ v, e = (k, f v) ∧ (k, v) ∈ m) ∨ e ∈ m := by
  induction m with
  | nil => simpa [btAdjustOrInsert] using h
  | cons e0 rest ih =>
    rcases e0 with ⟨k0, v0⟩
    rw [btAdjustOrInsert] at h
    by_cases h1 : k.data < k0.data
    · rw [if_pos h1] at h
      rcases List.mem_cons.mp h with h | h
      · exact Or.inl h
      · exact Or.inr (Or.inr h)
    · rw [if_neg h1] at h
      by_cases h2 : k.data = k0.data
      · rw [if_pos h2] at h
        rcases List.mem_cons.mp h with h | h
        · exact Or.inr (Or.inl ⟨v0, by rw [h, String.ext h2],
            by rw [String.ext h2]; exact List.mem_cons_self _ _⟩)
        · exact Or.inr (Or.inr (List.mem_cons_of_mem _ h))
      · rw [if_neg h2] at h
        rcases List.mem_cons.mp h with h | h
        · exact Or.inr (Or.inr (h ▸ List.mem_cons_self _ _))
        · rcases ih h with h | h | h
          · exact Or.inl h
          · rcases h with ⟨v, hv, hm⟩
            exact Or.inr (Or.inl ⟨v, hv, List.mem_cons_of_mem _ hm⟩)
          · exact Or.inr (Or.inr (List.mem_cons_of_mem _ h))

theorem btAdjustOrInsert_sorted {m : List (String × LocalPackage)} {k : String}
    {f : LocalPackage → LocalPackage} {d : LocalPackage} (hs : rocksSorted m) :
    rocksSorted (btAdjustOrInsert m k f d) := by
  induction m with
  | nil => simp [btAdjustOrInsert, rocksSorted]
  | cons e0 rest ih =>
    rcases e0 with ⟨k0, v0⟩
    rw [rocksSorted, List.pairwise_cons] at hs
    rcases hs with ⟨hall, htail⟩
    rw [btAdjustOrInsert]
    by_cases h1 : k.data < k0.data
    · rw [if_pos h1]
      refine List.Pairwise.cons ?_ (List.Pairwise.cons hall htail)
      intro e he
      rcases List.mem_cons.mp he with he | he
      · cases he; exact h1
      · exact lt_trans h1 (hall e he)
    · rw [if_neg h1]
      by_cases h2 : k.data = k0.data
      · rw [if_pos h2]
        exact List.Pairwise.cons hall htail
      · rw [if_neg h2]
        refine List.Pairwise.cons ?_ (ih htail)
        intro e he
        rcases mem_btAdjustOrInsert he with he | he | he
        · cases he
          rcases lt_trichotomy k.data k0.data with h | h | h
          · exact absurd h h1
          · exact absurd h h2
          · exact h
        · rcases he with ⟨v, hv, hm⟩
          have := hall (k, v) hm
          rw [hv]
          exact this
        · exact hall e he

theorem btGet_btAdjustOrInsert_present {m : List (String × LocalPackage)} {k : String}
    {f : LocalPackage → LocalPackage} {d v : LocalPackage} (hs : rocksSorted m)
    (h : btGet m k = some v) : btGet (btAdjustOrInsert m k f d) k = some (f v) := by
  induction m with
  | nil => simp [btGet] at h
  | cons e0 rest ih =>
    rcases e0 with ⟨k0, v0⟩
    rw [rocksSorted, List.pairwise_cons] at hs
    rcases hs with ⟨hall, htail⟩
    rw [btGet_cons] at h
    rw [btAdjustOrInsert]
    by_cases hk : k0 = k
    · rw [if_pos hk] at h
      cases h
      rw [if_neg (by rw [hk]; exact lt_irrefl k.data), if_pos (by rw [hk]), btGet_cons,
        if_pos hk]
    · rw [if_neg hk] at h
      have hk0lt : k0.data < k.data := hall (k, v) (btGet_mem h)
      rw [if_neg (not_lt_of_gt hk0lt), if_neg (fun hkk => hk (String.ext hkk).symm),
        btGet_cons, if_neg hk]
      exact ih htail h

theorem btGet_btAdjustOrInsert_ne {m : List (String × LocalPackage)} {k k2 : String}
    {f : LocalPackage → LocalPackage} {d : LocalPackage} (h : k2 ≠ k) :
    btGet (btAdjustOrInsert m k f d) k2 = btGet m k2 := by
  induction m with
  | nil =>
    rw [show btAdjustOrInsert [] k f d = [(k, d)] from rfl, btGet_cons, if_neg (Ne.symm h)]
  | cons e0 rest ih =>
    rcases e0 with ⟨k0, v0⟩
    rw [btAdjustOrInsert]
    by_cases h1 : k.data < k0.data
    · rw [if_pos h1, btGet_cons, if_neg (fun hk => h hk.symm)]
    · rw [if_neg h1]
      by_cases h2 : k.data = k0.data
      · rw [if_pos h2, btGet_cons, btGet_cons]
        rw [String.ext h2] at h
        rw [if_neg (fun hk => h hk.symm), if_neg (fun hk => h hk.symm)]
      · rw [if_neg h2, btGet_cons, btGet_cons, ih]

theorem btGet_btAdjustOrInsert_self_isSome (m : List (String × LocalPackage)) (k : String)
    (f : LocalPackage → LocalPackage) (d : LocalPackage) :
    (btGet (btAdjustOrInsert m k f d) k).isSome := by
  induction m with
  | nil => simp [btAdjustOrInsert, btGet_cons, btGet]
  | cons e0 rest ih =>
    rcases e0 with ⟨k0, v0⟩
    rw [btAdjustOrInsert]
    by_cases h1 : k.data < k0.data
    · rw [if_pos h1, btGet_cons, if_pos rfl]; rfl
    · rw [if_neg h1]
      by_cases h2 : k.data = k0.data
      · rw [if_pos h2, btGet_cons, if_pos (String.ext h2).symm]; rfl
      · rw [if_neg h2, btGet_cons, if_neg (fun hk => h2 (congrArg String.data hk.symm))]
        exact ih

/-! ### Claim C9: write-session adds never replace existing entries -/

/-- C9: within a write session, `add`/`add_entrypoint` leave an already-present id's
entry (indeed the whole rocks map) unchanged; `add_dependency` on an existing target only
appends the child id to that entry's dependency list and leaves every other entry as it
was; and the stored ids are monotone non-decreasing across all three operations. -/
theorem C9_adds_never_replace (l : LocalPackageLock) (r t d p : LocalPackage) (k : String)
    (hs : rocksSorted l.rocks) :
    ((l.get r.id).isSome →
        (lockAdd l r).rocks = l.rocks ∧ (lockAddEntrypoint l r).rocks = l.rocks) ∧
    (l.get k = some p → k ≠ r.id → (lockAdd l r).get k = some p) ∧
    (l.get t.id = some p → (lockAddDependency l t d).get t.id = some (pushDep p d.id)) ∧
    (l.get k = some p → k ≠ t.id → (lockAddDependency l t d).get k = some p) ∧
    ((l.get k).isSome →
      ((lockAdd l r).get k).isSome ∧ ((lockAddEntrypoint l r).get k).isSome ∧
        ((lockAddDependency l t d).get k).isSome) := by
  have hadj_sorted : rocksSorted (btAdjustOrInsert l.rocks t.id
      (fun x => pushDep x d.id) (pushDep t d.id)) := btAdjustOrInsert_sorted hs
  refine ⟨?_, ?_, ?_, ?_, ?_⟩
  · intro hsome
    rcases Option.isSome_iff_exists.mp hsome with ⟨v, hv⟩
    have h1 : btOrInsert l.rocks r.id r = l.rocks := btOrInsert_of_present hs hv
    exact ⟨h1, h1⟩
  · intro hget hne
    show btGet (btOrInsert l.rocks r.id r) k = some p
    rw [btGet_btOrInsert_ne hne]
    exact hget
  · intro hget
    show btGet (btOrInsert (btAdjustOrInsert l.rocks t.id (fun x => pushDep x d.id)
        (pushDep t d.id)) d.id d) t.id = some (pushDep p d.id)
    have hadj : btGet (btAdjustOrInsert l.rocks t.id (fun x => pushDep x d.id)
        (pushDep t d.id)) t.id = some (pushDep p d.id) :=
      btGet_btAdjustOrInsert_present hs hget
    by_cases hd : t.id = d.id
    · rw [hd] at hadj hadj_sorted ⊢
      rw [btOrInsert_of_present hadj_sorted hadj]
      exact hadj
    · rw [btGet_btOrInsert_ne hd]
      exact hadj
  · intro hget hne
    show btGet (btOrInsert (btAdjustOrInsert l.rocks t.id (fun x => pushDep x d.id)
        (pushDep t d.id)) d.id d) k = some p
    have hadj : btGet (btAdjustOrInsert l.rocks t.id (fun x => pushDep x d.id)
        (pushDep t d.id)) k = some p := by
      rw [btGet_btAdjustOrInsert_ne hne]
      exact hget
    by_cases hd : k = d.id
    · rw [hd] at hadj ⊢
      rw [btOrInsert_of_present hadj_sorted hadj]
      exact hadj
    · rw [btGet_btOrInsert_ne hd]
      exact hadj
  · intro hsome
    rcases Option.isSome_iff_exists.mp hsome with ⟨v, hv⟩
    have hv2 : btGet l.rocks k = some v := hv
    have hadd : ((lockAdd l r).get k).isSome := by
      show (btGet (btOrInsert l.rocks r.id r) k).isSome
      by_cases hk : k = r.id
      · rw [hk]; exact btGet_btOrInsert_self_isSome _ _ _
      · rw [btGet_btOrInsert_ne hk, hv2]; rfl
    refine ⟨hadd, hadd, ?_⟩
    show (btGet (btOrInsert (btAdjustOrInsert l.rocks t.id (fun x => pushDep x d.id)
        (pushDep t d.id)) d.id d) k).isSome
    by_cases hd : k = d.id
    · rw [hd]; exact btGet_btOrInsert_self_isSome _ _ _
    · rw [btGet_btOrInsert_ne hd]
      by_cases ht : k = t.id
      · rw [ht]; exact btGet_btAdjustOrInsert_self_isSome _ _ _ _
      · rw [btGet_btAdjustOrInsert_ne ht, hv2]; rfl

/-- C9, witness: re-adding a package already present by id leaves the rocks map
unchanged, at a concrete one-package lockfile. -/
theorem C9_adds_never_replace_witness :
    (lockAdd (lockAdd ⟨[], []⟩ pkgA) pkgA).rocks = (lockAdd ⟨[], []⟩ pkgA).rocks := by
  exact ((C9_adds_never_replace (lockAdd ⟨[], []⟩ pkgA) pkgA pkgA pkgA pkgA "k"
    (by
      rw [show (lockAdd ⟨[], []⟩ pkgA).rocks = [(pkgA.id, pkgA)] from rfl]
      exact List.Pairwise.cons (fun e he => by cases he) List.Pairwise.nil)).1
    (by decide)).1

/-! ### Claims C7 and C8: manifest fetch and cache freshness -/

/-- The trace of `get_manifest` always contains the GET of the manifest URL. -/
theorem getManifest_has_get (w : ManifestWorld) (url : String) :
    Effect.getReq url ∈ (getManifest w url).2 := by
  unfold getManifest
  by_cases h1 : isClientError (w.getResp url).status
  · by_cases h2 : isErrorStatus (w.getResp (fallbackUnzippedUrl url)).status
    · simp [h1, h2]
    · simp [h1, h2]
  · by_cases h2 : isErrorStatus (w.getResp url).status
    · simp [h1, h2]
    · cases hu : w.unzip (w.getResp url).body
      · simp [h1, h2, hu]
      · simp [h1, h2, hu]

/-- C7, counterexample: with the cache present and a HEAD answer that has no
`Last-Modified` header, `manifest_from_cache_or_server` does **not** serve from the
cache — it falls through to a full `get_manifest` download (a GET appears in the trace
and the result is the freshly fetched manifest, not the cached one). -/
theorem C7_counterexample :
    manifestFromCacheOrServer c7World "https://x.test/manifest-5.1.zip" =
      (.ok "fresh manifest",
       [.headReq "https://x.test/manifest-5.1.zip",
        .getReq "https://x.test/manifest-5.1.zip", .writeCache "fresh manifest"]) ∧
    ("fresh manifest" : String) ≠ "old cached manifest" := by
  exact ⟨rfl, by decide⟩

/-- C7, amended: on a cache miss the manifest is fetched unconditionally; with a cache
file and a successful HEAD, the cache is served (with no GET in the trace) exactly when
a `Last-Modified` header is present and not strictly newer than the cache's mtime; when
the server is strictly newer **or the header is absent**, a full `get_manifest` download
runs (the absent-header case behaves like a cache miss, not like a cache hit). -/
theorem C7_amended :
    (∀ (w : ManifestWorld) (url : String), w.cache = none →
        manifestFromCacheOrServer w url = getManifest w url) ∧
    (∀ (w : ManifestWorld) (url cached : String),
      w.cache = some cached → (w.headResp url).status < 400 →
      (∀ lm, (w.headResp url).lastModified = some lm →
          (lm ≤ w.cacheMtime →
            manifestFromCacheOrServer w url =
              (.ok cached, [.headReq url, .readCache]) ∧
            ∀ e ∈ (manifestFromCacheOrServer w url).2, isGet e = false) ∧
          (lm > w.cacheMtime →
            manifestFromCacheOrServer w url =
              ((getManifest w url).1, .headReq url :: (getManifest w url).2) ∧
            Effect.getReq url ∈ (manifestFromCacheOrServer w url).2)) ∧
      ((w.headResp url).lastModified = none →
          manifestFromCacheOrServer w url =
            ((getManifest w url).1, .headReq url :: (getManifest w url).2) ∧
          Effect.getReq url ∈ (manifestFromCacheOrServer w url).2)) := by
  constructor
  · intro w url hc
    unfold manifestFromCacheOrServer
    rw [hc]
  · intro w url cached hc hok
    have hce : isClientError (w.headResp url).status = false := by
      unfold isClientError
      simp only [Bool.and_eq_false_iff]
      left
      simpa using Nat.not_le_of_lt hok
    have hes : isErrorStatus (w.headResp url).status = false := by
      unfold isErrorStatus
      simpa using Nat.not_le_of_lt hok
    have hmain : manifestFromCacheOrServer w url =
        afterHead w url cached [.headReq url] (w.headResp url) := by
      unfold manifestFromCacheOrServer
      rw [hc, hce, hes]
      simp
    constructor
    · intro lm hlm
      constructor
      · intro hle
        have heq : manifestFromCacheOrServer w url = (.ok cached, [.headReq url, .readCache]) := by
          rw [hmain]
          unfold afterHead
          simp only [hlm]
          rw [if_neg (by omega)]
          rfl
        refine ⟨heq, ?_⟩
        rw [heq]
        intro e he
        rcases List.mem_cons.mp he with h | h
        · rw [h]; rfl
        · rcases List.mem_cons.mp h with h | h
          · rw [h]; rfl
          · cases h
      · intro hgt
        have heq : manifestFromCacheOrServer w url =
            ((getManifest w url).1, .headReq url :: (getManifest w url).2) := by
          rw [hmain]
          unfold afterHead
          simp only [hlm]
          rw [if_pos (by omega)]
          rcases hg : getManifest w url with ⟨res, eff⟩
          simp [hg]
        refine ⟨heq, ?_⟩
        rw [heq]
        exact List.mem_cons_of_mem _ (getManifest_has_get w url)
    · intro hlm
      have heq : manifestFromCacheOrServer w url =
          ((getManifest w url).1, .headReq url :: (getManifest w url).2) := by
        rw [hmain]
        unfold afterHead
        simp only [hlm]
        rcases hg : getManifest w url with ⟨res, eff⟩
        simp [hg]
      refine ⟨heq, ?_⟩
      rw [heq]
      exact List.mem_cons_of_mem _ (getManifest_has_get w url)

/-- C7, witness for the amended theorem: a concrete world whose cache is up to date
(`Last-Modified` 3 against mtime 5) is served from cache with no GET in the trace. -/
theorem C7_amended_witness :
    manifestFromCacheOrServer
        ⟨some "cached", 5, fun _ => ⟨200, none, ""⟩, fun _ => ⟨200, some 3, ""⟩,
          fun _ => none⟩ "u.zip" =
      (.ok "cached", [.headReq "u.zip", .readCache]) := by
  exact ((C7_amended.2 ⟨some "cached", 5, fun _ => ⟨200, none, ""⟩,
      fun _ => ⟨200, some 3, ""⟩, fun _ => none⟩ "u.zip" "cached" rfl
      (by decide)).1 3 rfl).1 (by decide) |>.1

/-- Stripping one `".zip"` suffix: `trim_end_matches` on a base that does not itself end
in `".zip"`. -/
theorem fallbackUnzippedUrl_append_zip (base : String)
    (h : ¬ List.isPrefixOf ['p', 'i', 'z', '.'] base.data.reverse) :
    fallbackUnzippedUrl (base ++ ".zip") = base := by
  have hdata : (base ++ ".zip").data = base.data ++ ['.', 'z', 'i', 'p'] := by
    rw [String.data_append]
  have hrev : (base ++ ".zip").data.reverse = 'p' :: 'i' :: 'z' :: '.' :: base.data.reverse := by
    rw [hdata, List.reverse_append]
    rfl
  have hlen : (base ++ ".zip").data.length = base.data.length + 4 := by
    rw [hdata, List.length_append]
    rfl
  unfold fallbackUnzippedUrl
  rw [hrev, hlen]
  have hstep : trimEndZipAux (base.data.length + 4)
      ('p' :: 'i' :: 'z' :: '.' :: base.data.reverse) =
      trimEndZipAux (base.data.length + 3) base.data.reverse := by
    rw [show base.data.length + 4 = (base.data.length + 3) + 1 from rfl, trimEndZipAux]
    rw [if_pos (by simp [List.isPrefixOf])]
    rfl
  have hstop : trimEndZipAux (base.data.length + 3) base.data.reverse = base.data.reverse := by
    rw [show base.data.length + 3 = (base.data.length + 2) + 1 from rfl, trimEndZipAux]
    rw [if_neg (by simpa using h)]
  rw [hstep, hstop, List.reverse_reverse]

/-- C8: on a 4xx answer for the `.zip` manifest URL, `get_manifest` retries exactly once
against the same URL stripped of its `.zip` suffix; on success the plain (unzipped)
response body is returned and written to the cache, on failure the error carries exactly
the two GETs; a non-4xx first answer is never retried (its trace holds exactly one GET).
Concretely, a server answering 404 for `manifest-5.1.zip` and 200 for `manifest-5.1`
yields a successful load whose content is the unzipped body. -/
theorem C8_zip_fallback :
    (∀ (base : String), ¬ List.isPrefixOf ['p', 'i', 'z', '.'] base.data.reverse →
        fallbackUnzippedUrl (base ++ ".zip") = base) ∧
    (∀ (w : ManifestWorld) (url : String),
      isClientError (w.getResp url).status = true →
      isErrorStatus (w.getResp (fallbackUnzippedUrl url)).status = false →
      getManifest w url =
        (.ok (w.getResp (fallbackUnzippedUrl url)).body,
         [.getReq url, .getReq (fallbackUnzippedUrl url),
          .writeCache (w.getResp (fallbackUnzippedUrl url)).body])) ∧
    (∀ (w : ManifestWorld) (url : String),
      isClientError (w.getResp url).status = true →
      isErrorStatus (w.getResp (fallbackUnzippedUrl url)).status = true →
      getManifest w url =
        (.error (.status (w.getResp (fallbackUnzippedUrl url)).status),
         [.getReq url, .getReq (fallbackUnzippedUrl url)])) ∧
    (∀ (w : ManifestWorld) (url : String),
      isClientError (w.getResp url).status = false →
      ((getManifest w url).2.countP isGet) = 1) := by
  refine ⟨fallbackUnzippedUrl_append_zip, ?_, ?_, ?_⟩
  · intro w url h1 h2
    unfold getManifest
    rw [h1, if_pos rfl, h2, if_neg (by simp)]
  · intro w url h1 h2
    unfold getManifest
    rw [h1, if_pos rfl, h2, if_pos rfl]
  · intro w url h1
    unfold getManifest
    rw [h1, if_neg (by simp)]
    by_cases h2 : isErrorStatus (w.getResp url).status
    · rw [h2, if_pos rfl]
      rfl
    · rw [Bool.not_eq_true] at h2
      rw [h2, if_neg (by simp)]
      cases hu : w.unzip (w.getResp url).body
      · rfl
      · rfl

/-- C8, witness: the concrete 404-zip / 200-plain scenario, settled by applying the
fallback theorem at `c8World`; the unzipped body is what gets loaded and cached. -/
theorem C8_zip_fallback_witness :
    getManifest c8World "https://luarocks.org/manifest-5.1.zip" =
      (.ok "unzipped manifest body",
       [.getReq "https://luarocks.org/manifest-5.1.zip",
        .getReq (fallbackUnzippedUrl "https://luarocks.org/manifest-5.1.zip"),
        .writeCache "unzipped manifest body"]) := by
  have hfb : fallbackUnzippedUrl "https://luarocks.org/manifest-5.1.zip" =
      "https://luarocks.org/manifest-5.1" := by decide
  have h := C8_zip_fallback.2.1 c8World "https://luarocks.org/manifest-5.1.zip"
    (by rw [show (c8World.getResp "https://luarocks.org/manifest-5.1.zip").status = 404
          from rfl]; decide)
    (by rw [hfb]; decide)
  rw [h, hfb]
  rfl

/-! ### Claim C2: the `to_add` set of `package_sync_spec` -/

/-- Pointwise-equal predicates give equal `any`. -/
theorem any_congr_mem {α : Type} {f g : α → Bool} :
    ∀ (xs : List α), (∀ x ∈ xs, f x = g x) → xs.any f = xs.any g := by
  intro xs
  induction xs with
  | nil => intro _; rfl
  | cons a as ih =>
    intro h
    rw [List.any_cons, List.any_cons, h a (List.mem_cons_self _ _),
      ih (fun x hx => h x (List.mem_cons_of_mem _ hx))]

/-- `find?` over a reversed filter is empty iff no element passes both predicates. -/
theorem find?_reverse_filter_isNone {α : Type} (xs : List α) (p q : α → Bool) :
    ((xs.filter q).reverse.find? p).isNone = !(xs.any fun x => q x && p x) := by
  rcases h : (xs.filter q).reverse.find? p with _ | a
  · rw [List.find?_eq_none] at h
    symm
    rw [show (none : Option α).isNone = true from rfl, Bool.not_eq_true', Bool.eq_false_iff]
    intro hany
    rw [List.any_eq_true] at hany
    rcases hany with ⟨x, hx, hqp⟩
    rw [Bool.and_eq_true] at hqp
    exact h x (by rw [List.mem_reverse, List.mem_filter]; exact ⟨hx, hqp.1⟩) hqp.2
  · have hm := List.mem_of_find?_eq_some h
    have hp := List.find?_some h
    rw [List.mem_reverse, List.mem_filter] at hm
    symm
    rw [show (some a).isNone = false from rfl, Bool.not_eq_false', List.any_eq_true]
    exact ⟨a, hm.1, by rw [Bool.and_eq_true]; exact ⟨hm.2, hp⟩⟩

/-- The grouped-and-reversed search of `has_rock_with_equal_constraint` finds something
iff some installed package of that name has an equal constraint. -/
theorem hasRockWithEqualConstraint_isNone (l : LocalPackageLock) (r : LuaDependencySpec) :
    (hasRockWithEqualConstraint l r).isNone =
      !(l.rocksValues.any (fun p =>
        p.name == r.name && p.constraintVal.matchesVersionReq r.versionReq)) := by
  unfold hasRockWithEqualConstraint
  exact find?_reverse_filter_isNone l.rocksValues
    (fun p => p.constraintVal.matchesVersionReq r.versionReq)
    (fun p => p.name == r.name)

/-- The code-side filter predicate of `to_add` agrees with the claim's wording. -/
theorem toAdd_pred_eq (l : LocalPackageLock) (r : LuaDependencySpec) :
    (hasRockWithEqualConstraint l r).isNone =
      !(l.rocksValues.any (fun p =>
        p.name == r.name &&
          (match p.constraintVal with
           | .unconstrained => r.versionReq == .any
           | .constrained c => c == r.versionReq))) := by
  rw [hasRockWithEqualConstraint_isNone]
  congr 1
  apply any_congr_mem
  intro p _
  congr 1
  rcases hc : p.constraintVal with _ | c
  · show PackageVersionReq.isAny r.versionReq = (r.versionReq == .any)
    cases r.versionReq <;> rfl
  · rfl

/-- C2: whenever `package_sync_spec` returns, its `to_add` is exactly the declared
requirements for which no installed package of the same name has an equal constraint
(structural equality, `Unconstrained` matching a declared `Any`); and tightening an
installed `nvim-nio` constraint `>=1.7.0,<1.8.0` to a declared `nvim-nio>=2.0.0` puts
the new requirement in `to_add` and the old package in `to_remove`. -/
theorem C2_to_add (l : LocalPackageLock) (reqs : List LuaDependencySpec) (fuel : Nat)
    (s : PackageSyncSpec) (h : packageSyncSpecF l reqs fuel = .ok s) :
    s.toAdd = specToAdd l reqs ∧
    packageSyncSpecF nvimNioLock [nvimNioReq] 0 =
      .ok ⟨[nvimNioReq], [nvimNioOld]⟩ := by
  constructor
  · unfold packageSyncSpecF at h
    rcases hm : l.entrypoints.mapM l.get with _ | eps
    · rw [hm] at h; cases h
    · rw [hm] at h
      dsimp only at h
      rcases hk : (List.filter (fun p => reqs.any
          (fun req => p.constraintVal.matchesVersionReq req.versionReq)) eps).mapM
          (fun p => getAllDependenciesF l fuel p.id) with _ | keeps
      · rw [hk] at h; cases h
      · rw [hk] at h
        dsimp only at h
        injection h with h2
        rw [← h2]
        show reqs.filter (fun pkg => (hasRockWithEqualConstraint l pkg).isNone) =
          specToAdd l reqs
        unfold specToAdd
        apply List.filter_congr
        intro r _
        exact toAdd_pred_eq l r
  · decide

/-- C2, witness: applying the theorem at the concrete `nvim-nio` lockfile, the computed
`to_add` coincides with the claim's characterization. -/
theorem C2_to_add_witness :
    (PackageSyncSpec.mk [nvimNioReq] [nvimNioOld]).toAdd =
      specToAdd nvimNioLock [nvimNioReq] := by
  exact (C2_to_add nvimNioLock [nvimNioReq] 0 ⟨[nvimNioReq], [nvimNioOld]⟩ (by decide)).1

/-! ### Claim C3: `LocalPackageId::new` and the hash input layout -/

theorem render_data_decomp (v : PackageVersion) :
    v.render.data = v.modrevPart ++ '-' :: natChars v.specrevOf := by
  cases v with
  | semVer sv =>
    show (SemVer.render sv).data = _
    unfold SemVer.render PackageVersion.modrevPart
    rcases h : splitSemverVersion sv.version.render.data with ⟨vs, rem⟩
    cases rem with
    | none =>
      simp only [h, String.data_append]
      simp [List.append_assoc, natToStr, PackageVersion.specrevOf]
    | some r =>
      simp only [h, String.data_append]
      simp [List.append_assoc, natToStr, PackageVersion.specrevOf]
  | devVer dv =>
    show (dv.modrev.render ++ "-" ++ natToStr dv.specrev).data = _
    simp only [String.data_append, PackageVersion.modrevPart]
    simp [List.append_assoc, natToStr, PackageVersion.specrevOf]
  | stringVer sv =>
    show (sv.modrev ++ "-" ++ natToStr sv.specrev).data = _
    simp only [String.data_append, PackageVersion.modrevPart]
    simp [List.append_assoc, natToStr, PackageVersion.specrevOf]

theorem withSpecrev_modrevPart (v : PackageVersion) (s : Nat) :
    (v.withSpecrev s).modrevPart = v.modrevPart := by
  cases v <;> rfl

theorem withSpecrev_specrevOf (v : PackageVersion) (s : Nat) :
    (v.withSpecrev s).specrevOf = s := by
  cases v <;> rfl

theorem foldl_digit_chars (ds : List Nat) (hd : ∀ d ∈ ds, d < 10) :
    List.foldl (fun a c => 10 * a + (c.toNat - 48)) 0
      ((ds.reverse).map (fun d => Char.ofNat (48 + d))) = Nat.ofDigits 10 ds := by
  rw [List.foldl_map, List.foldl_reverse]
  induction ds with
  | nil => simp [Nat.ofDigits_nil]
  | cons d ds ih =>
    rw [List.foldr_cons, ih (fun x hx => hd x (List.mem_cons_of_mem _ hx)),
      Nat.ofDigits_cons]
    have hdd : d < 10 := hd d (List.mem_cons_self _ _)
    have htn : (Char.ofNat (48 + d)).toNat = 48 + d := by interval_cases d <;> decide
    rw [htn]
    omega

theorem parseDigits_natChars (n : Nat) : parseDigits (natChars n) = n := by
  rw [natChars_eq_digits]
  by_cases h : n = 0
  · subst h; decide
  · rw [if_neg h]
    unfold parseDigits
    rw [foldl_digit_chars _ (fun d hd => Nat.digits_lt_base (by norm_num) hd),
      Nat.ofDigits_digits]

theorem natChars_injective : Function.Injective natChars := by
  intro a b h
  rw [← parseDigits_natChars a, ← parseDigits_natChars b, h]

/-- C3: `LocalPackageId::new` is the lowercase hex of the SHA-256 of the ordered
concatenation `name ∥ version ∥ pinned-bool ∥ opt-bool ∥ constraint-string` (empty for
`Unconstrained`); it is a pure function (equal inputs give equal ids); two packages
differing only in specrev always feed *different* byte strings to the hash — because the
specrev is part of the rendered version string — and concretely their ids differ
(id distinctness in general is SHA-256 collision-freeness, which no proof can supply). -/
theorem C3_id_hash_layout :
    (∀ (name : PackageName) (v : PackageVersion) (p : PinnedState) (o : OptState)
        (c : LockConstraint),
      LocalPackageId.new name v p o c =
        sha256Hex (name ++ v.render ++ boolStr p.asBool ++ boolStr o.asBool ++
          (match c with
           | .unconstrained => ""
           | .constrained req => req.render))) ∧
    (∀ (name : PackageName) (v : PackageVersion) (p : PinnedState) (o : OptState)
        (c : LockConstraint),
      LocalPackageId.new name v p o c = LocalPackageId.new name v p o c) ∧
    (∀ (name : PackageName) (p : PinnedState) (o : OptState) (c : LockConstraint)
        (v : PackageVersion) (s1 s2 : Nat), s1 ≠ s2 →
      idHashInput name (v.withSpecrev s1) p o c ≠ idHashInput name (v.withSpecrev s2) p o c) ∧
    (LocalPackageId.new "a" (.stringVer ⟨"x", 1⟩) .unpinned .required .unconstrained ≠
      LocalPackageId.new "a" (.stringVer ⟨"x", 2⟩) .unpinned .required .unconstrained) := by
  refine ⟨?_, ?_, ?_, ?_⟩
  · intro name v p o c
    cases c <;> rfl
  · intro _ _ _ _ _
    rfl
  · intro name p o c v s1 s2 hne heq
    apply hne
    apply natChars_injective
    have hdata : (idHashInput name (v.withSpecrev s1) p o c).data =
        (idHashInput name (v.withSpecrev s2) p o c).data := by rw [heq]
    unfold idHashInput at hdata
    simp only [String.data_append, render_data_decomp, withSpecrev_modrevPart,
      withSpecrev_specrevOf, List.append_assoc, List.cons_append] at hdata
    have h1 := List.append_cancel_left hdata
    have h2 := List.append_cancel_left h1
    rw [List.cons.injEq] at h2
    exact List.append_cancel_right h2.2
  · decide

/-- C3, witness: at a concrete package differing only in specrev (1 vs 2), the hash
inputs differ, by the theorem applied at those inputs. -/
theorem C3_id_hash_layout_witness :
    idHashInput "a" (PackageVersion.withSpecrev (.stringVer ⟨"x", 1⟩) 1) .unpinned
        .required .unconstrained ≠
      idHashInput "a" (PackageVersion.withSpecrev (.stringVer ⟨"x", 1⟩) 2) .unpinned
        .required .unconstrained :=
  C3_id_hash_layout.2.2.1 "a" .unpinned .required .unconstrained
    (.stringVer ⟨"x", 1⟩) 1 2 (by decide)

/-! ### Claim C6: persistence order of the rocks map -/

theorem mem_btInsert {m : List (String × LocalPackage)} {k : String} {v : LocalPackage}
    {e : String × LocalPackage} (h : e ∈ btInsert m k v) : e = (k, v) ∨ e ∈ m := by
  induction m with
  | nil => simpa [btInsert] using h
  | cons e0 rest ih =>
    rcases e0 with ⟨k0, v0⟩
    rw [btInsert] at h
    by_cases h1 : k.data < k0.data
    · rw [if_pos h1] at h
      rcases List.mem_cons.mp h with h | h
      · exact Or.inl h
      · exact Or.inr h
    · rw [if_neg h1] at h
      by_cases h2 : k.data = k0.data
      · rw [if_pos h2] at h
        rcases List.mem_cons.mp h with h | h
        · exact Or.inl (by rw [h, String.ext h2])
        · exact Or.inr (List.mem_cons_of_mem _ h)
      · rw [if_neg h2] at h
        rcases List.mem_cons.mp h with h | h
        · exact Or.inr (h ▸ List.mem_cons_self _ _)
        · rcases ih h with h | h
          · exact Or.inl h
          · exact Or.inr (List.mem_cons_of_mem _ h)

theorem btInsert_sorted {m : List (String × LocalPackage)} {k : String} {v : LocalPackage}
    (hs : rocksSorted m) : rocksSorted (btInsert m k v) := by
  induction m with
  | nil => simp [btInsert, rocksSorted]
  | cons e0 rest ih =>
    rcases e0 with ⟨k0, v0⟩
    rw [rocksSorted, List.pairwise_cons] at hs
    rcases hs with ⟨hall, htail⟩
    rw [btInsert]
    by_cases h1 : k.data < k0.data
    · rw [if_pos h1]
      refine List.Pairwise.cons ?_ (List.Pairwise.cons hall htail)
      intro e he
      rcases List.mem_cons.mp he with he | he
      · cases he; exact h1
      · exact lt_trans h1 (hall e he)
    · rw [if_neg h1]
      by_cases h2 : k.data = k0.data
      · rw [if_pos h2]
        refine List.Pairwise.cons ?_ htail
        intro e he
        exact hall e he
      · rw [if_neg h2]
        refine List.Pairwise.cons ?_ (ih htail)
        intro e he
        rcases mem_btInsert he with he | he
        · cases he
          rcases lt_trichotomy k.data k0.data with h | h | h
          · exact absurd h h1
          · exact absurd h h2
          · exact h
        · exact hall e he

/-- Inserting a key greater than everything present appends at the end. -/
theorem btInsert_append_end {m : List (String × LocalPackage)} {k : String}
    {v : LocalPackage} (h : ∀ e ∈ m, e.1.data < k.data) : btInsert m k v = m ++ [(k, v)] := by
  induction m with
  | nil => rfl
  | cons e0 rest ih =>
    rcases e0 with ⟨k0, v0⟩
    have hk0 : k0.data < k.data := h (k0, v0) (List.mem_cons_self _ _)
    rw [btInsert, if_neg (by exact not_lt_of_gt hk0),
      if_neg (by exact fun hkk => absurd (hkk ▸ hk0) (lt_irrefl k.data)), List.cons_append,
      ih (fun e he => h e (List.mem_cons_of_mem _ he))]

/-- Rebuilding a sorted map from its own serialization is the identity. -/
theorem btFromList_sorted (m : List (String × LocalPackage)) (hs : rocksSorted m) :
    btFromList m = m := by
  have general : ∀ (rest acc : List (String × LocalPackage)),
      rocksSorted (acc ++ rest) →
      List.foldl (fun m2 e => btInsert m2 e.1 e.2) acc rest = acc ++ rest := by
    intro rest
    induction rest with
    | nil => intro acc _; simp
    | cons e0 rest2 ih =>
      intro acc hacc
      rcases e0 with ⟨k0, v0⟩
      have hlt : ∀ e ∈ acc, e.1.data < k0.data := by
        intro e he
        rw [rocksSorted, List.pairwise_append] at hacc
        exact hacc.2.2 e he (k0, v0) (List.mem_cons_self _ _)
      rw [List.foldl_cons, btInsert_append_end hlt,
        ih (acc ++ [(k0, v0)]) (by rw [List.append_assoc]; exact hacc),
        List.append_assoc]
      rfl
  exact general m [] hs

/-- C6, counterexample: after adding `pkgB` and then `pkgA` in a write session, the
serialized rocks sequence is `[pkgA, pkgB]` — ascending id order — **not** the insertion
order `[pkgB, pkgA]`: the `rocks` map is a `BTreeMap` sorted by id, so insertion order
is not preserved. -/
theorem C6_counterexample :
    (lockAdd (lockAdd ⟨[], []⟩ pkgB) pkgA).rocks.map (fun e => e.2) = [pkgA, pkgB] ∧
    [pkgA, pkgB] ≠ [pkgB, pkgA] := by
  constructor
  · decide
  · decide

/-- C6, amended: the rocks map is kept sorted by id — every write-session add preserves
sortedness (so a lockfile built by adds serializes in ascending id order, a canonical
order that keeps diffs stable regardless of insertion order), and deserializing a
serialized map rebuilds it identically, so reloading preserves that order. -/
theorem C6_sorted_persistence (l : LocalPackageLock) (r t d : LocalPackage)
    (hs : rocksSorted l.rocks) :
    rocksSorted (lockAdd l r).rocks ∧
    rocksSorted (lockAddEntrypoint l r).rocks ∧
    rocksSorted (lockAddDependency l t d).rocks ∧
    btFromList l.rocks = l.rocks := by
  refine ⟨btOrInsert_sorted hs, btOrInsert_sorted hs,
    btOrInsert_sorted (btAdjustOrInsert_sorted hs), btFromList_sorted l.rocks hs⟩

/-- C6, witness: the sorted two-rock map above round-trips through serialization. -/
theorem C6_sorted_persistence_witness :
    btFromList (lockAdd (lockAdd ⟨[], []⟩ pkgB) pkgA).rocks =
      (lockAdd (lockAdd ⟨[], []⟩ pkgB) pkgA).rocks := by
  exact (C6_sorted_persistence (lockAdd (lockAdd ⟨[], []⟩ pkgB) pkgA) pkgA pkgA pkgA
    (by rw [show (lockAdd (lockAdd ⟨[], []⟩ pkgB) pkgA).rocks =
          [(pkgA.id, pkgA), (pkgB.id, pkgB)] by decide]
        exact List.Pairwise.cons
          (fun e he => by
            rw [List.mem_singleton.mp he]
            decide)
          (List.Pairwise.cons (fun e he => by cases he) List.Pairwise.nil))).2.2.2

end Lux

namespace Lux

/-! ### Claim C10: totality of `package_sync_spec` -/

/-- `mapM` over `Option` is exactly a `Forall₂` correspondence. -/
theorem mapM_option_forall₂ {α β : Type} (f : α → Option β) :
    ∀ (xs : List α) (ys : List β),
      xs.mapM f = some ys ↔ List.Forall₂ (fun x y => f x = some y) xs ys := by
  intro xs
  induction xs with
  | nil =>
    intro ys
    rw [List.mapM_nil]
    constructor
    · intro h
      cases h
      exact List.Forall₂.nil
    · intro h
      cases h
      rfl
  | cons a as ih =>
    intro ys
    rw [List.mapM_cons]
    constructor
    · intro h
      cases ha : f a with
      | none => rw [ha] at h; cases h
      | some b =>
        rw [ha] at h
        cases has : as.mapM f with
        | none => rw [has] at h; cases h
        | some bs =>
          rw [has] at h
          cases h
          exact List.Forall₂.cons ha ((ih bs).mp has)
    · intro h
      cases h with
      | cons hab htail =>
        rw [hab, (ih _).mpr htail]
        rfl

theorem forall₂_mem_left {α β : Type} {R : α → β → Prop} :
    ∀ {xs : List α} {ys : List β}, List.Forall₂ R xs ys →
      ∀ x ∈ xs, ∃ y ∈ ys, R x y := by
  intro xs ys h
  induction h with
  | nil => intro x hx; cases hx
  | cons hab htail ih =>
    intro x hx
    rcases List.mem_cons.mp hx with hx | hx
    · exact ⟨_, List.mem_cons_self _ _, hx ▸ hab⟩
    · rcases ih x hx with ⟨y, hy, hxy⟩
      exact ⟨y, List.mem_cons_of_mem _ hy, hxy⟩

theorem forall₂_mem_right {α β : Type} {R : α → β → Prop} :
    ∀ {xs : List α} {ys : List β}, List.Forall₂ R xs ys →
      ∀ y ∈ ys, ∃ x ∈ xs, R x y := by
  intro xs ys h
  induction h with
  | nil => intro y hy; cases hy
  | cons hab htail ih =>
    intro y hy
    rcases List.mem_cons.mp hy with hy | hy
    · exact ⟨_, List.mem_cons_self _ _, hy ▸ hab⟩
    · rcases ih y hy with ⟨x, hx, hxy⟩
      exact ⟨x, List.mem_cons_of_mem _ hx, hxy⟩

theorem mapM_get_eq_none_iff (l : LocalPackageLock) :
    ∀ (ids : List String), ids.mapM l.get = none ↔ ∃ eid ∈ ids, l.get eid = none := by
  intro ids
  induction ids with
  | nil =>
    rw [List.mapM_nil]
    simp
  | cons a as ih =>
    rw [List.mapM_cons]
    cases ha : l.get a with
    | none => simp [ha]
    | some p =>
      cases has : as.mapM l.get with
      | none =>
        simp only [Option.bind_eq_bind, Option.some_bind, has, Option.none_bind]
        rw [has] at ih
        simp only [true_iff] at ih
        rcases ih with ⟨eid, heid, hnone⟩
        simp only [true_iff]
        exact ⟨eid, List.mem_cons_of_mem _ heid, hnone⟩
      | some ps =>
        simp only [Option.bind_eq_bind, Option.some_bind, has]
        constructor
        · intro h
          cases h
        · rintro ⟨eid, heid, hnone⟩
          rcases List.mem_cons.mp heid with he | he
          · rw [he] at hnone
            rw [hnone] at ha
            cases ha
          · have := (ih.mpr ⟨eid, he, hnone⟩)
            rw [has] at this
            cases this

/-- `mapM` succeeds when every element does. -/
theorem mapM_some_of_forall {α β : Type} (f : α → Option β) :
    ∀ (xs : List α), (∀ x ∈ xs, ∃ y, f x = some y) → ∃ ys, xs.mapM f = some ys := by
  intro xs
  induction xs with
  | nil => intro _; exact ⟨[], rfl⟩
  | cons a as ih =>
    intro h
    rcases h a (List.mem_cons_self _ _) with ⟨b, hb⟩
    rcases ih (fun x hx => h x (List.mem_cons_of_mem _ hx)) with ⟨bs, hbs⟩
    refine ⟨b :: bs, ?_⟩
    rw [List.mapM_cons, hb, hbs]
    rfl

/-- Fuel above the rank evaluates `get_all_dependencies` to exactly the reachable set. -/
theorem getAllDependenciesF_correct (l : LocalPackageLock) (rank : String → Nat)
    (hrank : RankedDeps l rank) :
    ∀ (fuel : Nat) (a : String), rank a < fuel →
      ∃ lst, getAllDependenciesF l fuel a = some lst ∧ ∀ q, q ∈ lst ↔ ReachPkg l a q := by
  intro fuel
  induction fuel with
  | zero => intro a h; omega
  | succ fuel ih =>
    intro a ha
    cases hget : l.get a with
    | none =>
      refine ⟨[], by rw [getAllDependenciesF, hget], ?_⟩
      intro q
      constructor
      · intro hq; cases hq
      · intro hr
        cases hr with
        | here h => rw [hget] at h; cases h
        | step h _ _ => rw [hget] at h; cases h
    | some p =>
      have hexists : ∀ b ∈ p.dependencies, ∃ lb,
          getAllDependenciesF l fuel b = some lb ∧ ∀ q, q ∈ lb ↔ ReachPkg l b q := by
        intro b hb
        exact ih b (lt_of_lt_of_le (hrank a p hget b hb) (Nat.lt_succ_iff.mp ha))
      rcases mapM_some_of_forall (getAllDependenciesF l fuel) p.dependencies
        (fun b hb => (hexists b hb).imp (fun lb h2 => h2.1)) with ⟨out, hout⟩
      have hcorr := (mapM_option_forall₂ (getAllDependenciesF l fuel)
        p.dependencies out).mp hout
      refine ⟨p :: out.flatten, ?_, ?_⟩
      · rw [getAllDependenciesF, hget]
        dsimp only
        rw [hout]
        rfl
      · intro q
        constructor
        · intro hq
          rcases List.mem_cons.mp hq with hq | hq
          · exact hq ▸ ReachPkg.here hget
          · rw [List.mem_flatten] at hq
            rcases hq with ⟨lb, hlb, hqlb⟩
            rcases forall₂_mem_right hcorr lb hlb with ⟨b, hb, hfb⟩
            rcases hexists b hb with ⟨lb2, hlb2, hchar⟩
            rw [hfb] at hlb2
            cases hlb2
            exact ReachPkg.step hget hb ((hchar q).mp hqlb)
        · intro hr
          cases hr with
          | here h =>
            rw [hget] at h
            cases h
            exact List.mem_cons_self _ _
          | step h hb hq =>
            rw [hget] at h
            cases h
            rcases forall₂_mem_left hcorr _ hb with ⟨lb, hlb, hfb⟩
            rcases hexists _ hb with ⟨lb2, hlb2, hchar⟩
            rw [hfb] at hlb2
            cases hlb2
            refine List.mem_cons_of_mem _ ?_
            rw [List.mem_flatten]
            exact ⟨lb, hlb, (hchar q).mpr hq⟩

theorem cyclicLock_get : cyclicLock.get cyclicId = some cyclicPkg := by
  show btGet [(cyclicId, cyclicPkg)] cyclicId = some cyclicPkg
  rw [btGet_cons, if_pos rfl]

theorem getAllDeps_cyclic_none :
    ∀ fuel, getAllDependenciesF cyclicLock fuel cyclicId = none := by
  intro fuel
  induction fuel with
  | zero => rfl
  | succ fuel ih =>
    rw [getAllDependenciesF, cyclicLock_get]
    dsimp only
    rw [show cyclicPkg.dependencies = [cyclicId] from rfl, List.mapM_cons, ih]
    rfl

theorem packageSyncSpecF_cyclic_diverged :
    ∀ fuel, packageSyncSpecF cyclicLock [anyReq] fuel = .diverged := by
  intro fuel
  unfold packageSyncSpecF
  rw [show cyclicLock.entrypoints = [cyclicId] from rfl, List.mapM_cons, cyclicLock_get,
    List.mapM_nil]
  show (match some [cyclicPkg] with
    | none => SyncOutcome.panic
    | some eps => _) = SyncOutcome.diverged
  dsimp only
  rw [show List.filter (fun p => [anyReq].any
      (fun req => p.constraintVal.matchesVersionReq req.versionReq)) [cyclicPkg] =
    [cyclicPkg] from by decide]
  rw [List.mapM_cons, show cyclicPkg.id = cyclicId from rfl, getAllDeps_cyclic_none fuel]
  rfl

/-- C10, counterexample: on a lockfile whose entrypoint depends on itself — the
entrypoint invariant holds — `package_sync_spec` never returns: `get_all_dependencies`
recurses without a visited set, so no recursion depth suffices. -/
theorem C10_counterexample : ¬ SyncTerminates cyclicLock [anyReq] := by
  rintro ⟨fuel, h⟩
  exact h (packageSyncSpecF_cyclic_diverged fuel)

theorem le_foldr_max : ∀ (xs : List Nat), ∀ x ∈ xs, x ≤ xs.foldr max 0 := by
  intro xs
  induction xs with
  | nil => intro x hx; cases hx
  | cons a as ih =>
    intro x hx
    rcases List.mem_cons.mp hx with hx | hx
    · rw [hx, List.foldr_cons]
      exact le_max_left _ _
    · rw [List.foldr_cons]
      exact le_trans (ih x hx) (le_max_right _ _)

/-- C10, amended: an entrypoint id absent from `rocks` makes `package_sync_spec` panic
(the `expect`), and under the invariant that every entrypoint id is a key of `rocks`
the panic branch is unreachable; the function then returns a `PackageSyncSpec` for every
input whose dependency graph admits a rank function (is acyclic) — but, per the
counterexample, not for every input, since a dependency cycle reachable from a kept
entrypoint makes it recurse forever. -/
theorem C10_totality (l : LocalPackageLock) (packages : List LuaDependencySpec)
    (fuel : Nat) (rank : String → Nat) :
    ((∃ eid ∈ l.entrypoints, l.get eid = none) →
      packageSyncSpecF l packages fuel = .panic) ∧
    ((∀ eid ∈ l.entrypoints, (l.get eid).isSome) →
      packageSyncSpecF l packages fuel ≠ .panic) ∧
    ((∀ eid ∈ l.entrypoints, (l.get eid).isSome) → RankedDeps l rank →
      ∃ fuel2 s, packageSyncSpecF l packages fuel2 = .ok s) := by
  refine ⟨?_, ?_, ?_⟩
  · intro habsent
    unfold packageSyncSpecF
    rw [(mapM_get_eq_none_iff l l.entrypoints).mpr habsent]
  · intro hinv
    unfold packageSyncSpecF
    cases hm : l.entrypoints.mapM l.get with
    | none =>
      rcases (mapM_get_eq_none_iff l l.entrypoints).mp hm with ⟨eid, heid, hnone⟩
      have := hinv eid heid
      rw [hnone] at this
      cases this
    | some eps =>
      dsimp only
      cases hk : (List.filter (fun p => packages.any
          (fun req => p.constraintVal.matchesVersionReq req.versionReq)) eps).mapM
          (fun p => getAllDependenciesF l fuel p.id) with
      | none => simp
      | some keeps => simp
  · intro hinv hrank
    cases hm : l.entrypoints.mapM l.get with
    | none =>
      rcases (mapM_get_eq_none_iff l l.entrypoints).mp hm with ⟨eid, heid, hnone⟩
      have := hinv eid heid
      rw [hnone] at this
      cases this
    | some eps =>
      set keepEps := List.filter (fun p => packages.any
        (fun req => p.constraintVal.matchesVersionReq req.versionReq)) eps with hkeep
      set fuel2 := (keepEps.map (fun e => rank e.id)).foldr max 0 + 1 with hfuel2
      have hall : ∀ e ∈ keepEps, ∃ lst,
          (fun p => getAllDependenciesF l fuel2 p.id) e = some lst := by
        intro e he
        have hle : rank e.id ≤ (keepEps.map (fun e => rank e.id)).foldr max 0 :=
          le_foldr_max _ _ (List.mem_map_of_mem _ he)
        rcases getAllDependenciesF_correct l rank hrank fuel2 e.id (by omega)
          with ⟨lst, hlst, _⟩
        exact ⟨lst, hlst⟩
      rcases mapM_some_of_forall (fun p => getAllDependenciesF l fuel2 p.id)
        keepEps hall with ⟨out, hout⟩
      refine ⟨fuel2,
        ⟨packages.filter (fun pkg => (hasRockWithEqualConstraint l pkg).isNone),
         l.rocksValues.filter (fun pkg => !(out.flatten.contains pkg))⟩, ?_⟩
      unfold packageSyncSpecF
      rw [hm]
      dsimp only
      rw [← hkeep, hout]

/-- C10, witness: the amended theorem applied at the empty lockfile — the invariant
holds vacuously and the function never panics there. -/
theorem C10_totality_witness :
    packageSyncSpecF ⟨[], []⟩ [] 0 ≠ .panic := by
  exact (C10_totality ⟨[], []⟩ [] 0 (fun _ => 0)).2.1 (fun eid heid => by cases heid)

end Lux

namespace Lux

/-! ### Claim C1: the sync partition -/

theorem matchesVersionReq_iff_decl (c : LockConstraint) (r : PackageVersionReq) :
    c.matchesVersionReq r = true ↔ constraintMatchesDecl c r := by
  cases c with
  | unconstrained =>
    cases r <;> simp [LockConstraint.matchesVersionReq, PackageVersionReq.isAny,
      constraintMatchesDecl]
  | constrained c =>
    simp [LockConstraint.matchesVersionReq, constraintMatchesDecl]

theorem btGet_value_mem {m : List (String × LocalPackage)} {k : String}
    {v : LocalPackage} (h : btGet m k = some v) : v ∈ m.map (fun e => e.2) := by
  have := btGet_mem h
  exact List.mem_map_of_mem _ this

theorem reachPkg_mem_values {l : LocalPackageLock} {a : String} {q : LocalPackage}
    (h : ReachPkg l a q) : q ∈ l.rocksValues := by
  induction h with
  | here hg => exact btGet_value_mem hg
  | step _ _ _ ih => exact ih

theorem get_self_of_keyConsistent {l : LocalPackageLock} (hkeys : KeyConsistent l)
    {eid : String} {e : LocalPackage} (h : l.get eid = some e) :
    l.get e.id = some e := by
  have hmem : (eid, e) ∈ l.rocks := btGet_mem h
  have hid : e.id = eid := hkeys (eid, e) hmem
  rw [hid]
  exact h

theorem reachPkg_append {l : LocalPackageLock} {a : String} {q' q : LocalPackage}
    (h : ReachPkg l a q') : depStep l q' q → ReachPkg l a q := by
  induction h with
  | here hg =>
    rintro ⟨id, hid, hgq⟩
    exact ReachPkg.step hg hid (ReachPkg.here hgq)
  | step hg hb _ ih =>
    intro hstep
    exact ReachPkg.step hg hb (ih hstep)

theorem reachPkg_head {l : LocalPackageLock} {b : String} {q : LocalPackage}
    (h : ReachPkg l b q) : ∃ p, l.get b = some p := by
  cases h with
  | here hg => exact ⟨_, hg⟩
  | step hg _ _ => exact ⟨_, hg⟩

theorem reachPkg_of_reflTransGen {l : LocalPackageLock} {e q : LocalPackage}
    (hget : l.get e.id = some e) (h : Relation.ReflTransGen (depStep l) e q) :
    ReachPkg l e.id q := by
  induction h with
  | refl => exact ReachPkg.here hget
  | tail _ hstep ih => exact reachPkg_append ih hstep

theorem reflTransGen_of_reachPkg {l : LocalPackageLock} {a : String} {q : LocalPackage}
    (h : ReachPkg l a q) :
    ∀ e, l.get a = some e → Relation.ReflTransGen (depStep l) e q := by
  induction h with
  | here hg =>
    intro e he
    rw [hg] at he
    cases he
    exact Relation.ReflTransGen.refl
  | step hg hb hr ih =>
    intro e he
    rw [hg] at he
    cases he
    rcases reachPkg_head hr with ⟨p2, hp2⟩
    exact Relation.ReflTransGen.head ⟨_, hb, hp2⟩ (ih p2 hp2)

/-- C1, counterexample: the claimed partition fails on the code in two independent ways.
On a lockfile whose entrypoint depends on itself (entrypoint invariant intact),
`package_sync_spec` never returns at all.  On a lockfile whose single rock is stored
under a key other than its computed id, the function returns and *removes* a rock that
is a kept entrypoint (it matches a declared requirement and is trivially reachable from
itself), so the kept set does not equal the closure of the kept entrypoints. -/
theorem C1_counterexample :
    (¬ SyncTerminates cyclicLock [anyReq]) ∧
    packageSyncSpecF misKeyLock [misKeyReq] 1 = .ok ⟨[], [misKeyPkg]⟩ ∧
    SpecKept misKeyLock [misKeyReq] misKeyPkg ∧
    misKeyPkg ∈ (PackageSyncSpec.mk [] [misKeyPkg]).toRemove := by
  refine ⟨?_, ?_, ?_, List.mem_cons_self _ _⟩
  · rintro ⟨fuel, h⟩
    exact h (packageSyncSpecF_cyclic_diverged fuel)
  · decide
  · refine ⟨misKeyPkg, ⟨"k", List.mem_cons_self _ _, ?_, misKeyReq,
      List.mem_cons_self _ _, ?_⟩, Relation.ReflTransGen.refl⟩
    · show btGet [("k", misKeyPkg)] "k" = some misKeyPkg
      rw [btGet_cons, if_pos rfl]
    · show (PackageVersionReq.any = .any)
      rfl

/-- C1, amended: for every lockfile body whose entrypoint ids all occur in `rocks`,
whose rocks are keyed by their computed package ids, and whose dependency graph admits
a rank function (is acyclic), `package_sync_spec` returns and partitions the installed
rocks: the kept set (rocks minus `to_remove`) is exactly the transitive closure, under
the dependencies relation, of the entrypoints whose installed constraint equals some
declared requirement's version requirement (`Unconstrained` matching `Any`); `to_remove`
is drawn from the rocks, so kept and removed cover all rocks and are disjoint, and every
kept rock is reachable from some kept entrypoint.  (Without acyclicity the function can
fail to terminate; without id-consistent keys a kept entrypoint can be removed.) -/
theorem C1_sync_partition (l : LocalPackageLock) (reqs : List LuaDependencySpec)
    (rank : String → Nat) (hkeys : KeyConsistent l)
    (heps : ∀ eid ∈ l.entrypoints, (l.get eid).isSome) (hrank : RankedDeps l rank) :
    ∃ fuel s, packageSyncSpecF l reqs fuel = .ok s ∧
      (∀ p, (p ∈ l.rocksValues ∧ p ∉ s.toRemove) ↔ SpecKept l reqs p) ∧
      (∀ p ∈ s.toRemove, p ∈ l.rocksValues) ∧
      (∀ p, SpecKept l reqs p → p ∉ s.toRemove) := by
  -- the entrypoint packages
  have hm : ∃ eps, l.entrypoints.mapM l.get = some eps := by
    cases hm : l.entrypoints.mapM l.get with
    | none =>
      rcases (mapM_get_eq_none_iff l l.entrypoints).mp hm with ⟨eid, heid, hnone⟩
      have := heps eid heid
      rw [hnone] at this
      cases this
    | some eps => exact ⟨eps, rfl⟩
  rcases hm with ⟨eps, hm⟩
  have hepscorr := (mapM_option_forall₂ l.get l.entrypoints eps).mp hm
  set keepEps := List.filter (fun p => reqs.any
    (fun req => p.constraintVal.matchesVersionReq req.versionReq)) eps with hkeep
  set fuel := (keepEps.map (fun e => rank e.id)).foldr max 0 + 1 with hfuel
  -- the closure lists
  have hall : ∀ e ∈ keepEps, ∃ lst,
      (fun p => getAllDependenciesF l fuel p.id) e = some lst := by
    intro e he
    have hle : rank e.id ≤ (keepEps.map (fun e => rank e.id)).foldr max 0 :=
      le_foldr_max _ _ (List.mem_map_of_mem _ he)
    rcases getAllDependenciesF_correct l rank hrank fuel e.id (by omega)
      with ⟨lst, hlst, _⟩
    exact ⟨lst, hlst⟩
  rcases mapM_some_of_forall (fun p => getAllDependenciesF l fuel p.id) keepEps hall
    with ⟨out, hout⟩
  have houtcorr := (mapM_option_forall₂ (fun p => getAllDependenciesF l fuel p.id)
    keepEps out).mp hout
  -- characterize membership in keepEps
  have hkeepEps_iff : ∀ e, e ∈ keepEps ↔ keptEntrypoint l reqs e := by
    intro e
    rw [hkeep, List.mem_filter]
    constructor
    · rintro ⟨heeps, hpred⟩
      rcases forall₂_mem_right hepscorr e heeps with ⟨eid, heid, hgete⟩
      rw [List.any_eq_true] at hpred
      rcases hpred with ⟨r, hr, hmatch⟩
      exact ⟨eid, heid, hgete, r, hr, (matchesVersionReq_iff_decl _ _).mp hmatch⟩
    · rintro ⟨eid, heid, hgete, r, hr, hdecl⟩
      constructor
      · rcases forall₂_mem_left hepscorr eid heid with ⟨e2, he2, hge2⟩
        rw [hgete] at hge2
        cases hge2
        exact he2
      · rw [List.any_eq_true]
        exact ⟨r, hr, (matchesVersionReq_iff_decl _ _).mpr hdecl⟩
  -- membership in the flattened closure
  have hflatten_iff : ∀ p, p ∈ out.flatten ↔
      ∃ e ∈ keepEps, ReachPkg l e.id p := by
    intro p
    rw [List.mem_flatten]
    constructor
    · rintro ⟨lst, hlst, hplst⟩
      rcases forall₂_mem_right houtcorr lst hlst with ⟨e, he, hfe⟩
      have hle : rank e.id ≤ (keepEps.map (fun e => rank e.id)).foldr max 0 :=
        le_foldr_max _ _ (List.mem_map_of_mem _ he)
      rcases getAllDependenciesF_correct l rank hrank fuel e.id (by omega)
        with ⟨lst2, hlst2, hchar⟩
      rw [hfe] at hlst2
      cases hlst2
      exact ⟨e, he, (hchar p).mp hplst⟩
    · rintro ⟨e, he, hreach⟩
      rcases forall₂_mem_left houtcorr e he with ⟨lst, hlst, hfe⟩
      have hle : rank e.id ≤ (keepEps.map (fun e => rank e.id)).foldr max 0 :=
        le_foldr_max _ _ (List.mem_map_of_mem _ he)
      rcases getAllDependenciesF_correct l rank hrank fuel e.id (by omega)
        with ⟨lst2, hlst2, hchar⟩
      rw [hfe] at hlst2
      cases hlst2
      exact ⟨lst, hlst, (hchar p).mpr hreach⟩
  -- the closure is the claim's kept set
  have hspec_iff : ∀ p, p ∈ out.flatten ↔ SpecKept l reqs p := by
    intro p
    rw [hflatten_iff]
    constructor
    · rintro ⟨e, he, hreach⟩
      have hkept := (hkeepEps_iff e).mp he
      rcases hkept with ⟨eid, heid, hgete, hr⟩
      have hgeteid : l.get e.id = some e := get_self_of_keyConsistent hkeys hgete
      exact ⟨e, ⟨eid, heid, hgete, hr⟩, reflTransGen_of_reachPkg hreach e hgeteid⟩
    · rintro ⟨e, hkept, hrtg⟩
      have he : e ∈ keepEps := (hkeepEps_iff e).mpr hkept
      rcases hkept with ⟨eid, heid, hgete, _⟩
      have hgeteid : l.get e.id = some e := get_self_of_keyConsistent hkeys hgete
      exact ⟨e, he, reachPkg_of_reflTransGen hgeteid hrtg⟩
  -- assemble the outcome
  refine ⟨fuel,
    ⟨reqs.filter (fun pkg => (hasRockWithEqualConstraint l pkg).isNone),
     l.rocksValues.filter (fun pkg => !(out.flatten.contains pkg))⟩, ?_, ?_, ?_, ?_⟩
  · unfold packageSyncSpecF
    rw [hm]
    dsimp only
    rw [← hkeep, hout]
  · intro p
    constructor
    · rintro ⟨hpv, hpnr⟩
      rw [← hspec_iff]
      by_contra hnot
      exact hpnr (List.mem_filter.mpr ⟨hpv, by
        rw [Bool.not_eq_true']
        rw [Bool.eq_false_iff]
        intro hc
        exact hnot (List.elem_iff.mp hc)⟩)
    · intro hspec
      have hpf : p ∈ out.flatten := (hspec_iff p).mpr hspec
      constructor
      · rcases hspec with ⟨e, _, _⟩
        rcases (hflatten_iff p).mp hpf with ⟨e2, _, hreach⟩
        exact reachPkg_mem_values hreach
      · intro hmem
        rcases List.mem_filter.mp hmem with ⟨_, hpred⟩
        rw [Bool.not_eq_true'] at hpred
        rw [Bool.eq_false_iff] at hpred
        exact hpred (List.elem_iff.mpr hpf)
  · intro p hp
    exact (List.mem_filter.mp hp).1
  · intro p hspec hmem
    have hpf : p ∈ out.flatten := (hspec_iff p).mpr hspec
    rcases List.mem_filter.mp hmem with ⟨_, hpred⟩
    rw [Bool.not_eq_true'] at hpred
    rw [Bool.eq_false_iff] at hpred
    exact hpred (List.elem_iff.mpr hpf)

/-- C1, witness: the partition theorem applied at the empty lockfile with no declared
requirements — the sync returns and the kept set is (vacuously) the closure. -/
theorem C1_sync_partition_witness :
    ∃ fuel s, packageSyncSpecF ⟨[], []⟩ [] fuel = .ok s ∧
      (∀ p, (p ∈ LocalPackageLock.rocksValues ⟨[], []⟩ ∧ p ∉ s.toRemove) ↔
        SpecKept ⟨[], []⟩ [] p) ∧
      (∀ p ∈ s.toRemove, p ∈ LocalPackageLock.rocksValues ⟨[], []⟩) ∧
      (∀ p, SpecKept ⟨[], []⟩ [] p → p ∉ s.toRemove) := by
  exact C1_sync_partition ⟨[], []⟩ [] (fun _ => 0)
    (fun kp hkp => by cases hkp)
    (fun eid heid => by cases heid)
    (fun a p hget => by cases hget)

end Lux

namespace Lux

/-! ### Claim C4: version parse/render round trip -/

theorem natChars_all_digit (n : Nat) : (natChars n).all Char.isDigit = true := by
  rw [natChars_eq_digits]
  by_cases h : n = 0
  · rw [if_pos h]; decide
  · rw [if_neg h, List.all_eq_true]
    intro c hc
    rcases List.mem_map.mp hc with ⟨d, hd, rfl⟩
    have hd10 : d < 10 := Nat.digits_lt_base (by norm_num) (List.mem_reverse.mp hd)
    interval_cases d <;> decide

theorem natChars_ne_nil (n : Nat) : natChars n ≠ [] := by
  rw [natChars_eq_digits]
  by_cases h : n = 0
  · rw [if_pos h]; decide
  · rw [if_neg h]
    intro hc
    apply Nat.digits_ne_nil_iff_ne_zero.mpr h
    have h2 : (Nat.digits 10 n).reverse = [] := by
      cases hrev : (Nat.digits 10 n).reverse with
      | nil => rfl
      | cons x xs => rw [hrev] at hc; cases hc
    rw [← List.reverse_reverse (Nat.digits 10 n), h2]
    rfl

theorem all_digit_not_mem {cs : List Char} (h : cs.all Char.isDigit = true) {c : Char}
    (hc : c.isDigit = false) : c ∉ cs := by
  intro hm
  rw [List.all_eq_true] at h
  have h2 := h c hm
  rw [hc] at h2
  cases h2

theorem charOfNat_digit_ne_zero {d : Nat} (h1 : d ≠ 0) (h2 : d < 10) :
    Char.ofNat (48 + d) ≠ '0' := by
  have h3 : 0 < d := Nat.pos_of_ne_zero h1
  interval_cases d <;> decide

theorem validNumeric_natChars {m : Nat} (hm : m < u64Bound) :
    validNumeric (natChars m) = true := by
  by_cases h0 : m = 0
  · subst h0; decide
  · unfold validNumeric
    rw [Bool.and_eq_true, Bool.and_eq_true, Bool.and_eq_true]
    refine ⟨⟨⟨?_, natChars_all_digit m⟩, ?_⟩, ?_⟩
    · rw [Bool.not_eq_true', Bool.eq_false_iff]
      intro hh
      exact natChars_ne_nil m (List.isEmpty_iff.mp hh)
    · rw [Bool.or_eq_true]
      left
      rw [decide_eq_true_iff]
      have hne : Nat.digits 10 m ≠ [] := Nat.digits_ne_nil_iff_ne_zero.mpr h0
      rw [natChars_eq_digits, if_neg h0, List.head?_map, List.head?_reverse,
        List.getLast?_eq_getLast _ hne, Option.map_some']
      intro heq
      exact charOfNat_digit_ne_zero (Nat.getLast_digit_ne_zero 10 h0)
        (Nat.digits_lt_base (by norm_num) (List.getLast_mem hne)) (Option.some.inj heq)
    · rw [decide_eq_true_iff, parseDigits_natChars]
      exact hm

theorem validNumeric_all_digit {cs : List Char} (h : validNumeric cs = true) :
    cs.all Char.isDigit = true := by
  unfold validNumeric at h
  rw [Bool.and_eq_true, Bool.and_eq_true, Bool.and_eq_true] at h
  exact h.1.1.2

theorem splitLastDash_eq_none {cs : List Char} (h : '-' ∉ cs) :
    splitLastDash cs = none := by
  induction cs with
  | nil => rfl
  | cons c cs ih =>
    have hc : c ≠ '-' := fun he => h (he ▸ List.mem_cons_self _ _)
    have hcs : '-' ∉ cs := fun hm => h (List.mem_cons_of_mem _ hm)
    rw [splitLastDash, ih hcs]
    simp [hc]

theorem splitLastDash_append (xs ys : List Char) (h : '-' ∉ ys) :
    splitLastDash (xs ++ '-' :: ys) = some (xs, ys) := by
  induction xs with
  | nil =>
    rw [List.nil_append, splitLastDash, splitLastDash_eq_none h]
    simp
  | cons x xs ih =>
    rw [List.cons_append, splitLastDash, ih]

theorem splitOnDot_ne_nil (cs : List Char) : splitOnDot cs ≠ [] := by
  cases cs with
  | nil => simp [splitOnDot]
  | cons c cs =>
    rw [splitOnDot]
    rcases h : splitOnDot cs with _ | ⟨p, ps⟩
    · simp
    · dsimp only
      split <;> simp

theorem splitOnDot_no_dot {cs : List Char} (h : '.' ∉ cs) : splitOnDot cs = [cs] := by
  induction cs with
  | nil => rfl
  | cons c cs ih =>
    have hc : c ≠ '.' := fun he => h (he ▸ List.mem_cons_self _ _)
    have hcs : '.' ∉ cs := fun hm => h (List.mem_cons_of_mem _ hm)
    rw [splitOnDot, ih hcs]
    simp [hc]

theorem splitOnDot_append (xs ys : List Char) (h : '.' ∉ xs) :
    splitOnDot (xs ++ '.' :: ys) = xs :: splitOnDot ys := by
  induction xs with
  | nil =>
    rw [List.nil_append, splitOnDot]
    rcases hy : splitOnDot ys with _ | ⟨p, ps⟩
    · exact absurd hy (splitOnDot_ne_nil ys)
    · simp
  | cons x xs ih =>
    have hx : x ≠ '.' := fun he => h (he ▸ List.mem_cons_self _ _)
    have hxs : '.' ∉ xs := fun hm => h (List.mem_cons_of_mem _ hm)
    rw [List.cons_append, splitOnDot, ih hxs]
    simp [hx]

theorem splitOnDot_joinDot {ds : List (List Char)} (hne : ds ≠ [])
    (h : ∀ d ∈ ds, '.' ∉ d) : splitOnDot (joinDot ds) = ds := by
  induction ds with
  | nil => exact absurd rfl hne
  | cons d rest ih =>
    cases rest with
    | nil => exact splitOnDot_no_dot (h d (List.mem_cons_self _ _))
    | cons d2 rest2 =>
      show splitOnDot (d ++ '.' :: joinDot (d2 :: rest2)) = _
      rw [splitOnDot_append _ _ (h d (List.mem_cons_self _ _)),
        ih (by simp) (fun x hx => h x (List.mem_cons_of_mem _ hx))]

theorem not_mem_joinDot {ds : List (List Char)} {c : Char} (hc : c ≠ '.')
    (h : ∀ d ∈ ds, c ∉ d) : c ∉ joinDot ds := by
  induction ds with
  | nil => simp [joinDot]
  | cons d rest ih =>
    cases rest with
    | nil => exact h d (List.mem_cons_self _ _)
    | cons d2 r2 =>
      show c ∉ d ++ '.' :: joinDot (d2 :: r2)
      intro hm
      rcases List.mem_append.mp hm with hm | hm
      · exact h d (List.mem_cons_self _ _) hm
      · rcases List.mem_cons.mp hm with hm | hm
        · exact hc hm
        · exact ih (fun x hx => h x (List.mem_cons_of_mem _ hx)) hm

theorem joinDot_ne_nil {ds : List (List Char)} (hne : ds ≠ [])
    (h : ∀ d ∈ ds, d ≠ []) : joinDot ds ≠ [] := by
  cases ds with
  | nil => exact absurd rfl hne
  | cons d rest =>
    cases rest with
    | nil => exact h d (List.mem_cons_self _ _)
    | cons d2 r2 =>
      show d ++ '.' :: joinDot (d2 :: r2) ≠ []
      simp

theorem spanDigits_append {xs : List Char} (hx : xs.all Char.isDigit = true)
    {c : Char} (hc : c.isDigit = false) (ys : List Char) :
    spanDigits (xs ++ c :: ys) = (xs, c :: ys) := by
  induction xs with
  | nil =>
    rw [List.nil_append, spanDigits]
    simp [hc]
  | cons x xs ih =>
    rw [List.all_cons, Bool.and_eq_true] at hx
    rw [List.cons_append, spanDigits, if_pos hx.1, ih hx.2]

theorem splitFirstPlus_no_plus {cs : List Char} (h : '+' ∉ cs) :
    splitFirstPlus cs = (cs, none) := by
  induction cs with
  | nil => rfl
  | cons c cs ih =>
    have hc : c ≠ '+' := fun he => h (he ▸ List.mem_cons_self _ _)
    have hcs : '+' ∉ cs := fun hm => h (List.mem_cons_of_mem _ hm)
    rw [splitFirstPlus, if_neg hc, ih hcs]

theorem plainPreIdent_parts {d : List Char} (h : plainPreIdent d = true) :
    d ≠ [] ∧ d.all Char.isAlphanum = true := by
  unfold plainPreIdent at h
  rw [Bool.and_eq_true, Bool.and_eq_true] at h
  refine ⟨?_, h.1.2⟩
  have h1 := h.1.1
  rw [Bool.not_eq_true', Bool.eq_false_iff] at h1
  intro hd
  exact h1 (List.isEmpty_iff.mpr hd)

theorem plainPreIdent_not_mem {d : List Char} (h : plainPreIdent d = true) {c : Char}
    (hc : c.isAlphanum = false) : c ∉ d := by
  intro hm
  have h2 := (plainPreIdent_parts h).2
  rw [List.all_eq_true] at h2
  have h3 := h2 c hm
  rw [hc] at h3
  cases h3

theorem plainPreIdent_valid {d : List Char} (h : plainPreIdent d = true) :
    validPreIdent d = true := by
  unfold plainPreIdent at h
  unfold validPreIdent
  rw [Bool.and_eq_true, Bool.and_eq_true] at h ⊢
  refine ⟨⟨h.1.1, ?_⟩, h.2⟩
  rw [List.all_eq_true] at h ⊢
  intro c hcm
  have := h.1.2 c hcm
  unfold isIdentChar
  rw [Bool.or_eq_true]
  exact Or.inl this

theorem validPre_joinDot {ds : List (List Char)} (hne : ds ≠ [])
    (h : ∀ d ∈ ds, plainPreIdent d = true) : validPre (joinDot ds) = true := by
  unfold validPre
  rw [splitOnDot_joinDot hne
    (fun d hd => plainPreIdent_not_mem (h d hd) (by decide)), List.all_eq_true]
  intro d hd
  exact plainPreIdent_valid (h d hd)

end Lux

namespace Lux

theorem parseVersionTail_dash {D : List Char} (hD : validPre D = true)
    (hplus : '+' ∉ D) : parseVersionTail ('-' :: D) = some (⟨D⟩, "") := by
  rw [parseVersionTail, splitFirstPlus_no_plus hplus]
  dsimp only
  rw [if_pos hD]

theorem semverParseVersion_core (A B C D : List Char)
    (hA : validNumeric A = true) (hB : validNumeric B = true)
    (hC : validNumeric C = true)
    (hD : validPre D = true) (hplus : '+' ∉ D) :
    semverParseVersion ⟨A ++ '.' :: (B ++ '.' :: (C ++ '-' :: D))⟩ =
      some ⟨parseDigits A, parseDigits B, parseDigits C, ⟨D⟩, ""⟩ := by
  have h1 : spanDigits (A ++ '.' :: (B ++ '.' :: (C ++ '-' :: D))) =
      (A, '.' :: (B ++ '.' :: (C ++ '-' :: D))) :=
    spanDigits_append (validNumeric_all_digit hA) (by decide) _
  have h2 : spanDigits (B ++ '.' :: (C ++ '-' :: D)) = (B, '.' :: (C ++ '-' :: D)) :=
    spanDigits_append (validNumeric_all_digit hB) (by decide) _
  have h3 : spanDigits (C ++ '-' :: D) = (C, '-' :: D) :=
    spanDigits_append (validNumeric_all_digit hC) (by decide) _
  unfold semverParseVersion
  rw [show (String.mk (A ++ '.' :: (B ++ '.' :: (C ++ '-' :: D)))).data =
    A ++ '.' :: (B ++ '.' :: (C ++ '-' :: D)) from rfl]
  simp only [h1, h2, h3, hA, hB, hC, parseVersionTail_dash hD hplus]
  rfl

theorem parse_mkVersionStr (a b c n : Nat) (ds : List (List Char))
    (ha : a < u64Bound) (hb : b < u64Bound) (hc : c < u64Bound)
    (hn : n < 65536) (hds : ds ≠ []) (hall : ∀ d ∈ ds, plainPreIdent d = true) :
    PackageVersion.parse (mkVersionStr a b c ds n) =
      some (.semVer ⟨⟨a, b, c, ⟨joinDot ds⟩, ""⟩, 3, n⟩) := by
  have hdotD : ∀ d ∈ ds, '.' ∉ d :=
    fun d hd => plainPreIdent_not_mem (hall d hd) (by decide)
  have hdashN : '-' ∉ natChars n := all_digit_not_mem (natChars_all_digit n) (by decide)
  have hplusD : '+' ∉ joinDot ds :=
    not_mem_joinDot (by decide) (fun d hd => plainPreIdent_not_mem (hall d hd) (by decide))
  have hAnodot : '.' ∉ natChars a := all_digit_not_mem (natChars_all_digit a) (by decide)
  have hBnodot : '.' ∉ natChars b := all_digit_not_mem (natChars_all_digit b) (by decide)
  have hCnodot : '.' ∉ natChars c := all_digit_not_mem (natChars_all_digit c) (by decide)
  have hie : (natChars n).isEmpty = false := by
    rw [Bool.eq_false_iff]
    intro hh
    exact natChars_ne_nil n (List.isEmpty_iff.mp hh)
  have hsplit : splitSpecrev (mkVersionStr a b c ds n) =
      some (⟨natChars a ++ '.' :: natChars b ++ '.' :: natChars c ++ '.' :: joinDot ds⟩,
        n) := by
    unfold splitSpecrev
    rw [show (mkVersionStr a b c ds n).data =
      (natChars a ++ '.' :: natChars b ++ '.' :: natChars c ++ '.' :: joinDot ds) ++
        '-' :: natChars n from by simp [mkVersionStr, List.append_assoc]]
    rw [splitLastDash_append _ _ hdashN]
    dsimp only
    rw [if_pos (natChars_all_digit n), if_neg (by rw [hie]; exact Bool.false_ne_true),
      if_pos (by rw [parseDigits_natChars]; exact hn), parseDigits_natChars]
  have hdotM : '.' ∈ natChars a ++ '.' :: natChars b ++ '.' :: natChars c ++
      '.' :: joinDot ds := by simp
  have hscm : ¬ (⟨natChars a ++ '.' :: natChars b ++ '.' :: natChars c ++
      '.' :: joinDot ds⟩ : String) = "scm" := by
    intro h
    have h2 : natChars a ++ '.' :: natChars b ++ '.' :: natChars c ++
      '.' :: joinDot ds = ['s', 'c', 'm'] := congrArg String.data h
    rw [h2] at hdotM
    exact absurd hdotM (by decide)
  have hdev : ¬ (⟨natChars a ++ '.' :: natChars b ++ '.' :: natChars c ++
      '.' :: joinDot ds⟩ : String) = "dev" := by
    intro h
    have h2 : natChars a ++ '.' :: natChars b ++ '.' :: natChars c ++
      '.' :: joinDot ds = ['d', 'e', 'v'] := congrArg String.data h
    rw [h2] at hdotM
    exact absurd hdotM (by decide)
  have hcd : ¬ (countDots (natChars a ++ '.' :: natChars b ++ '.' :: natChars c ++
      '.' :: joinDot ds) < 2) := by
    simp [countDots, List.countP_append, List.countP_cons]
    omega
  have hassoc : natChars a ++ '.' :: natChars b ++ '.' :: natChars c ++
      '.' :: joinDot ds = natChars a ++ '.' :: (natChars b ++ '.' ::
      (natChars c ++ '.' :: joinDot ds)) := by simp
  have hsod : splitOnDot (natChars a ++ '.' :: natChars b ++ '.' :: natChars c ++
      '.' :: joinDot ds) = natChars a :: natChars b :: natChars c :: ds := by
    rw [hassoc, splitOnDot_append _ _ hAnodot, splitOnDot_append _ _ hBnodot,
      splitOnDot_append _ _ hCnodot, splitOnDot_joinDot hds hdotD]
  have hpv : parseVersion (natChars a ++ '.' :: natChars b ++ '.' :: natChars c ++
      '.' :: joinDot ds) = some ⟨a, b, c, ⟨joinDot ds⟩, ""⟩ := by
    unfold parseVersion correctVersionString appendMinorPatchIfMissing
    rw [show appendMinorPatchAux 2 (natChars a ++ '.' :: natChars b ++ '.' ::
      natChars c ++ '.' :: joinDot ds) = natChars a ++ '.' :: natChars b ++ '.' ::
      natChars c ++ '.' :: joinDot ds from by rw [appendMinorPatchAux, if_neg hcd]]
    unfold correctPrereleaseVersionString
    rw [hsod]
    dsimp only
    rw [if_pos (by simp [Nat.lt_iff_add_one_le]; exact List.length_pos.mpr hds)]
    simp only [List.getD_cons_zero, List.getD_cons_succ, List.drop_succ_cons,
      List.drop_zero]
    rw [show natChars a ++ '.' :: natChars b ++ '.' :: natChars c ++
      '-' :: joinDot ds = natChars a ++ '.' :: (natChars b ++ '.' ::
      (natChars c ++ '-' :: joinDot ds)) from by simp]
    rw [semverParseVersion_core _ _ _ _ (validNumeric_natChars ha)
      (validNumeric_natChars hb) (validNumeric_natChars hc)
      (validPre_joinDot hds hall) hplusD, parseDigits_natChars, parseDigits_natChars,
      parseDigits_natChars]
  have hge : 3 ≤ countDots (mkVersionStr a b c ds n).data := by
    simp [mkVersionStr, countDots, List.countP_append, List.countP_cons]
    omega
  unfold PackageVersion.parse
  rw [hsplit]
  dsimp only
  rw [if_neg hscm, if_neg hdev, hpv]
  dsimp only
  rw [min_eq_right (by omega : 3 ≤ countDots (mkVersionStr a b c ds n).data + 1)]

end Lux

namespace Lux

theorem render_mkVersionStr (a b c n : Nat) (ds : List (List Char)) (hds : ds ≠ [])
    (hall : ∀ d ∈ ds, plainPreIdent d = true) :
    (PackageVersion.semVer ⟨⟨a, b, c, ⟨joinDot ds⟩, ""⟩, 3, n⟩).render =
      mkVersionStr a b c ds n := by
  have hdashD : '-' ∉ joinDot ds :=
    not_mem_joinDot (by decide) (fun d hd => plainPreIdent_not_mem (hall d hd) (by decide))
  have hAnodot : '.' ∉ natChars a := all_digit_not_mem (natChars_all_digit a) (by decide)
  have hBnodot : '.' ∉ natChars b := all_digit_not_mem (natChars_all_digit b) (by decide)
  have hCnodot : '.' ∉ natChars c := all_digit_not_mem (natChars_all_digit c) (by decide)
  have hDne : joinDot ds ≠ [] :=
    joinDot_ne_nil hds (fun d hd => (plainPreIdent_parts (hall d hd)).1)
  have hDstr : (⟨joinDot ds⟩ : String) ≠ "" := by
    intro h
    exact hDne (congrArg String.data h)
  have hvr : (SvVersion.mk a b c ⟨joinDot ds⟩ "").render.data =
      (natChars a ++ '.' :: (natChars b ++ '.' :: natChars c)) ++ '-' :: joinDot ds := by
    unfold SvVersion.render
    rw [if_neg hDstr, if_pos rfl]
    simp [natToStr, List.append_assoc]
  have hsplit : splitSemverVersion (SvVersion.mk a b c ⟨joinDot ds⟩ "").render.data =
      (natChars a ++ '.' :: (natChars b ++ '.' :: natChars c), some (joinDot ds)) := by
    unfold splitSemverVersion
    rw [hvr, splitLastDash_append _ _ hdashD]
  have hsod3 : splitOnDot (natChars a ++ '.' :: (natChars b ++ '.' :: natChars c)) =
      [natChars a, natChars b, natChars c] := by
    rw [splitOnDot_append _ _ hAnodot, splitOnDot_append _ _ hBnodot,
      splitOnDot_no_dot hCnodot]
  show SemVer.render _ = _
  unfold SemVer.render
  rw [hsplit]
  dsimp only
  rw [hsod3]
  apply String.ext
  simp [mkVersionStr, natToStr, joinDot, List.append_assoc]

/-- C4, counterexample: the round-trip-identity clause fails on the code.  A string
with four dotted components and *no* explicit specrev parses as a SemVer version but
renders with `-1` appended (`"1.0.0.10"` comes back as `"1.0.0.10-1"`); and when the
pre-release part itself contains a `'-'`, Display does not restore the dotted form:
`"1.0.0.10-2-1"` parses as SemVer (pre-release `"10-2"`) but renders as
`"1.0.0-10.2-1"`.  (The specific example called out in the claim does hold.) -/
theorem C4_counterexample :
    PackageVersion.parse "1.0.0.10" = some (.semVer ⟨⟨1, 0, 0, "10", ""⟩, 3, 1⟩) ∧
    (PackageVersion.semVer ⟨⟨1, 0, 0, "10", ""⟩, 3, 1⟩).render = "1.0.0.10-1" ∧
    "1.0.0.10-1" ≠ "1.0.0.10" ∧
    PackageVersion.parse "1.0.0.10-2-1" =
      some (.semVer ⟨⟨1, 0, 0, "10-2", ""⟩, 3, 1⟩) ∧
    (PackageVersion.semVer ⟨⟨1, 0, 0, "10-2", ""⟩, 3, 1⟩).render = "1.0.0-10.2-1" ∧
    "1.0.0-10.2-1" ≠ "1.0.0.10-2-1" := by
  refine ⟨by decide, by decide, ?_, by decide, by decide, ?_⟩
  · intro h
    exact absurd (congrArg String.data h) (by decide)
  · intro h
    exact absurd (congrArg String.data h) (by decide)

/-- C4, amended: on version strings `a.b.c.d1.….dk-n` with an *explicit* specrev and
extra dotted components that are plain alphanumeric identifiers (no `'-'`), the claim
holds: parsing stores the fourth and later dotted components as the semver pre-release
`d1.….dk` (with `component_count` 3 and specrev `n`), and Display restores exactly the
original string.  Without an explicit specrev the rendering appends `-1`, and a `'-'`
inside the extra components breaks the restoration, so the claim's universal
round-trip-identity statement is false in general. -/
theorem C4_amended (a b c n : Nat) (ds : List (List Char))
    (ha : a < u64Bound) (hb : b < u64Bound) (hc : c < u64Bound)
    (hn : n < 65536) (hds : ds ≠ []) (hall : ∀ d ∈ ds, plainPreIdent d = true) :
    PackageVersion.parse (mkVersionStr a b c ds n) =
      some (.semVer ⟨⟨a, b, c, ⟨joinDot ds⟩, ""⟩, 3, n⟩) ∧
    (PackageVersion.semVer ⟨⟨a, b, c, ⟨joinDot ds⟩, ""⟩, 3, n⟩).render =
      mkVersionStr a b c ds n :=
  ⟨parse_mkVersionStr a b c n ds ha hb hc hn hds hall,
   render_mkVersionStr a b c n ds hds hall⟩

/-- C4, witness: the amended theorem applied at `"1.0.0.10-1"`
(`a = 1`, `b = c = 0`, one extra component `"10"`, specrev 1). -/
theorem C4_amended_witness :
    PackageVersion.parse (mkVersionStr 1 0 0 [['1', '0']] 1) =
      some (.semVer ⟨⟨1, 0, 0, ⟨joinDot [['1', '0']]⟩, ""⟩, 3, 1⟩) ∧
    (PackageVersion.semVer ⟨⟨1, 0, 0, ⟨joinDot [['1', '0']]⟩, ""⟩, 3, 1⟩).render =
      mkVersionStr 1 0 0 [['1', '0']] 1 :=
  C4_amended 1 0 0 1 [['1', '0']] (by decide) (by decide) (by decide) (by decide)
    (by decide) (by decide)

end Lux
